import Mathlib

/-!
Verification development for the EmailValidator repository.

The deterministic core engine (core/email_hygeine_engine.py) is embedded
shallowly: Python strings become `List Char`, Python floats become `ℚ`,
and the two external libraries the engine calls (idna encoding and the
fuzzy matcher rapidfuzz/difflib) become explicit function parameters,
constrained by hypotheses only where a theorem needs them.
-/

namespace EV

/-- Python strings are modelled as lists of characters. -/
abbrev Str := List Char

/-- Characters matched by Python str.isspace / the regex class \s
(ASCII whitespace plus the Unicode whitespace code points). -/
def isPySpace (c : Char) : Bool :=
  c.toNat = 32 ∨ (9 ≤ c.toNat ∧ c.toNat ≤ 13) ∨
  c.toNat = 0x1c ∨ c.toNat = 0x1d ∨ c.toNat = 0x1e ∨ c.toNat = 0x1f ∨
  c.toNat = 0x85 ∨ c.toNat = 0xa0 ∨ c.toNat = 0x1680 ∨
  (0x2000 ≤ c.toNat ∧ c.toNat ≤ 0x200a) ∨
  c.toNat = 0x2028 ∨ c.toNat = 0x2029 ∨ c.toNat = 0x202f ∨
  c.toNat = 0x205f ∨ c.toNat = 0x3000

/-- Zero-width characters stripped by the engine (ZW in engine.py:
U+200B, U+200C, U+200D, U+2060). -/
def isZW (c : Char) : Bool :=
  c.toNat = 0x200b ∨ c.toNat = 0x200c ∨ c.toNat = 0x200d ∨ c.toNat = 0x2060

/-- The fullwidth at sign U+FF20 replaced by ASCII at. -/
def fwAt : Char := Char.ofNat 0xFF20

/-- Python str.lower restricted to the ASCII range, applied char-wise
(the embedding of str.lower / .lower() calls in the engine). -/
def pyLower (c : Char) : Char :=
  if 65 ≤ c.toNat ∧ c.toNat ≤ 90 then Char.ofNat (c.toNat + 32) else c

/-- Drop matching characters from the right end of a list. -/
def dropWhileRight (p : Char → Bool) (s : Str) : Str :=
  (s.reverse.dropWhile p).reverse

/-- Python str.strip with a character-set predicate: drop matching
characters from both ends. -/
def stripBoth (p : Char → Bool) (s : Str) : Str :=
  dropWhileRight p (s.dropWhile p)

/-- Python str.strip() with no argument (whitespace on both ends). -/
def pyStrip (s : Str) : Str := stripBoth isPySpace s

/-- Python domain.rstrip of the dot character. -/
def rstripDot (s : Str) : Str := dropWhileRight (fun c => c = '.') s

/-- Substring test: does pat occur contiguously in s (Python in operator). -/
def containsSub (pat : Str) : Str → Bool
  | [] => pat.isEmpty
  | c :: t => pat.isPrefixOf (c :: t) || containsSub pat t

/-- Worker for Python str.replace: the first argument counts characters
still to be skipped because they belong to an occurrence already
replaced; at skip zero, a match of pat emits rep and schedules the rest
of the occurrence for skipping. -/
def replaceSubGo (pat rep : Str) : Nat → Str → Str
  | _, [] => []
  | skip + 1, _ :: t => replaceSubGo pat rep skip t
  | 0, c :: t =>
    if pat.isPrefixOf (c :: t) ∧ ¬ pat.isEmpty then
      rep ++ replaceSubGo pat rep (pat.length - 1) t
    else c :: replaceSubGo pat rep 0 t

/-- Python str.replace old new: replace each leftmost non-overlapping
occurrence of pat by rep, continuing after the replacement. -/
def replaceSub (pat rep : Str) (s : Str) : Str := replaceSubGo pat rep 0 s

/-- Worker for the dot collapse; the flag records whether the previously
kept character was a dot, in which case further dots are dropped. -/
def collapseDotsGo : Bool → Str → Str
  | _, [] => []
  | prevDot, c :: t =>
    if c = '.' then
      if prevDot then collapseDotsGo true t else '.' :: collapseDotsGo true t
    else c :: collapseDotsGo false t

/-- Collapse every run of consecutive dots to a single dot
(the regex sub of two-or-more dots in the engine). -/
def collapseDots (s : Str) : Str := collapseDotsGo false s

/-- Number of at signs in a string (Python s.count of the at sign). -/
def atCount (s : Str) : Nat := s.count '@'

/-- The key of the mangled SMART_QUOTES_MAP literal in engine.py as the
Python tokenizer reads it: the file holds plain ASCII quotes where curly
quotes once stood, so the first dict key is the seven-character string
colon space quote quote quote comma space, mapped to a single quote. -/
def smartPat : Str := [':', ' ', '\x22', '\x22', '\x22', ',', ' ']

/-- The apostrophe character, the second (identity) entry of the map. -/
def apos : Char := Char.ofNat 39

/-- The smart-quotes replacement loop of normalize_email_raw: one
str.replace per entry of SMART_QUOTES_MAP in insertion order. -/
def applySmartQuotes (s : Str) : Str :=
  replaceSub [apos] [apos] (replaceSub smartPat ['\x22'] s)

/-- Split at the first at sign: the local part (Python split at-sign 1,
component 0). -/
def takeLocal (s : Str) : Str := s.takeWhile (fun c => c ≠ '@')

/-- Split at the first at sign: the domain part (component 1). -/
def takeDomain (s : Str) : Str := (s.dropWhile (fun c => c ≠ '@')).tail

/-- Normalization stage (a)-(b) of normalize_email_raw (engine.py lines
174-177): zero-width removal, outer whitespace strip, and the
smart-quote replacement loop. -/
def nstage2 (s : Str) : Str := applySmartQuotes (pyStrip (s.filter (fun c => !isZW c)))

/-- Normalization stage (c) (engine.py lines 178-180): the conditional
angle-bracket strip followed by a whitespace strip. -/
def nstage3 (s : Str) : Str :=
  if (nstage2 s).contains '<' || (nstage2 s).contains '>' then
    pyStrip (stripBoth (fun c => c = '<' || c = '>') (nstage2 s))
  else nstage2 s

/-- Normalization stage (d) (engine.py lines 182-184): the conditional
fullwidth-at replacement. -/
def nstage4 (s : Str) : Str :=
  if (nstage3 s).contains fwAt then
    (nstage3 s).map (fun c => if c = fwAt then '@' else c)
  else nstage3 s

/-- Normalization stage (e) (engine.py lines 186-188): the conditional
removal of all remaining whitespace. -/
def nstage5 (s : Str) : Str :=
  if (nstage4 s).any isPySpace then (nstage4 s).filter (fun c => !isPySpace c)
  else nstage4 s

/-- The domain after the trailing-dot rstrip (engine.py line 195). -/
def ndom1 (s5 : Str) : Str := rstripDot (takeDomain s5)

/-- The domain after the conditional double-dot collapse (engine.py
lines 200-202). -/
def ndom2 (s5 : Str) : Str :=
  if containsSub ['.', '.'] (ndom1 s5) then collapseDots (ndom1 s5) else ndom1 s5

/-- The processed domain segment: lowercased (engine.py line 204). -/
def ndomainOut (s5 : Str) : Str := (ndom2 s5).map pyLower

/-- The rebuilt output of the main normalization branch (line 207). -/
def nOut (s5 : Str) : Str := takeLocal s5 ++ '@' :: ndomainOut s5

/-- The flags appended by stages (c)-(e), in order. -/
def normFlags15 (s0 : Str) : List String :=
  (if (nstage2 s0).contains '<' || (nstage2 s0).contains '>'
   then ["angle_brackets_stripped"] else []) ++
  (if (nstage3 s0).contains fwAt then ["fullwidth_at_replaced"] else []) ++
  (if (nstage4 s0).any isPySpace then ["whitespace_removed"] else [])

/-- The flags after the domain steps of the main branch, in order. -/
def normFlags8 (s0 : Str) : List String :=
  normFlags15 s0 ++
  (if ndom1 (nstage5 s0) ≠ takeDomain (nstage5 s0)
   then ["trailing_dot_domain_stripped"] else []) ++
  (if containsSub ['.', '.'] (ndom1 (nstage5 s0))
   then ["double_dot_domain_collapsed"] else []) ++
  (if ndomainOut (nstage5 s0) ≠ ndom2 (nstage5 s0) then ["domain_lowercased"] else [])

/--
Embedding of normalize_email_raw (engine.py lines 161-212): strip
whitespace and zero-width characters, run the (mangled) smart-quote
replacements, strip one layer of angle brackets, replace the fullwidth
at sign, remove all remaining whitespace, and — when exactly one at sign
is present — rstrip a trailing dot from the domain, collapse consecutive
dots in the domain and lowercase it. Assembled from the stage functions
above; returns the normalized string and the flag list in the order
Python appends them.
-/
def normalize_email_raw (s0 : Str) : Str × List String :=
  if atCount (nstage5 s0) ≠ 1 then (nstage5 s0, normFlags15 s0)
  else
    (nOut (nstage5 s0),
     normFlags8 s0 ++
     (if nOut (nstage5 s0) ≠ s0 ∧ ¬ (normFlags8 s0).contains "whitespace_removed"
      then ["normalized"] else []))

/-- Embedding of split_local_domain (engine.py lines 214-217). -/
def split_local_domain (email : Str) : Str × Str :=
  if atCount email ≠ 1 then ([], []) else (takeLocal email, takeDomain email)

/-- Embedding of the try-encode-ascii test in _is_ascii. -/
def _is_ascii (s : Str) : Bool := s.all (fun c => c.toNat < 128)

/-- Embedding of _has_suspicious_script: the per-character unicodedata
lookup of the external library is a parameter susp, consulted only for
non-ASCII characters exactly as the source does. -/
def _has_suspicious_script (susp : Char → Bool) (s : Str) : Bool :=
  s.any (fun c => decide (128 ≤ c.toNat) && susp c)

/-- Embedding of idna_ascii (engine.py lines 223-246). The external idna
library's UTS-46 encoder is the parameter idnaEnc; none models an
IDNAError, in which case the domain is returned unmodified with no flag. -/
def idna_ascii (idnaEnc : Str → Option Str) (susp : Char → Bool)
    (domain : Str) : Str × List String :=
  if domain.isEmpty then (domain, [])
  else if _is_ascii domain then (domain, [])
  else
    match idnaEnc domain with
    | none => (domain, [])
    | some a =>
      (a, "non_ascii_domain" ::
        (if _has_suspicious_script susp domain then ["unicode_confusable"] else []))

/-- ASCII letter or digit. -/
def isAsciiAlphaNum (c : Char) : Bool :=
  (65 ≤ c.toNat ∧ c.toNat ≤ 90) ∨ (97 ≤ c.toNat ∧ c.toNat ≤ 122) ∨
  (48 ≤ c.toNat ∧ c.toNat ≤ 57)

/-- Match against DOMAIN_LABEL_RE: first and last character alphanumeric,
interior characters alphanumeric or hyphen, interior length at most 61. -/
def domainLabelMatch (l : Str) : Bool :=
  match l with
  | [] => false
  | c :: rest =>
    isAsciiAlphaNum c &&
    (match rest.reverse with
     | [] => true
     | d :: mid =>
       isAsciiAlphaNum d && mid.all (fun e => isAsciiAlphaNum e || e = '-') &&
       decide (mid.length ≤ 61))

/-- Embedding of validate_domain_structure (engine.py lines 248-266). -/
def validate_domain_structure (domainAscii : Str) : List String :=
  if domainAscii.isEmpty then ["empty_domain"]
  else
    let labels := domainAscii.splitOn '.'
    (if labels.any (fun l => l.isEmpty) then ["double_dot_domain"] else []) ++
    labels.flatMap (fun lbl =>
      if lbl.length = 0 ∨ lbl.length > 63 then ["invalid_domain_label"]
      else if ¬ domainLabelMatch lbl then ["invalid_domain_label"] else [])

/-- The embedded minimal TLD whitelist of is_known_tld. -/
def DEFAULT_TLDS : List Str :=
  (["com","net","org","io","co","ai","gov","edu","us","uk","de","fr","es","it","nl",
    "ca","au","ch","se","no","dk","fi","pt","br","in","sg","jp","kr","cn","me","tv","dev"
   ] : List String).map String.toList

/-- Embedding of is_known_tld (engine.py lines 269-283): membership of the
lowercased final dot-separated label in the whitelist. -/
def is_known_tld (domainAscii : Str) (knownTlds : Option (List Str)) : Bool :=
  if domainAscii.isEmpty || !domainAscii.contains '.' then false
  else
    let tld := ((domainAscii.reverse.takeWhile (fun c => c ≠ '.')).reverse).map pyLower
    (knownTlds.getD DEFAULT_TLDS).contains tld

/-- Characters of LOCAL_SAFE_CHARS by code point (letters, digits, and
the RFC 5322 atom specials). -/
def isLocalSafe (c : Char) : Bool :=
  isAsciiAlphaNum c ||
  ([33, 35, 36, 37, 38, 39, 42, 43, 47, 61, 63, 94, 95, 96, 123, 124, 125, 126, 45]
    : List Nat).contains c.toNat

/-- Match against LOCAL_UNQUOTED_RE: nonempty, first and last character
safe, interior characters safe or dot. -/
def localUnquotedMatch : Str → Bool
  | [] => false
  | c :: rest =>
    isLocalSafe c &&
    (match rest.reverse with
     | [] => true
     | d :: mid => isLocalSafe d && mid.all (fun e => isLocalSafe e || e = '.'))

/-- Embedding of validate_local_part (engine.py lines 289-304). -/
def validate_local_part (lp : Str) : List String :=
  if lp.isEmpty then ["empty_local"]
  else
    let risks :=
      (if lp.head? = some '.' ∨ lp.getLast? = some '.'
       then ["leading_trailing_dot"] else []) ++
      (if containsSub ['.', '.'] lp then ["double_dot_local"] else [])
    if lp.head? = some '\x22' ∧ lp.getLast? = some '\x22' then risks
    else risks ++ (if ¬ localUnquotedMatch lp then ["invalid_syntax"] else [])

/-- The embedded role-account local parts. -/
def EMBED_ROLE_LOCAL_PARTS : List Str :=
  (["admin","root","info","sales","support","help","contact","hello",
    "noreply","no-reply","donotreply","billing","accounts","careers",
    "jobs","press","marketing","newsletter","devnull","abuse","postmaster"
   ] : List String).map String.toList

/-- The embedded free-mail domains. -/
def EMBED_FREE_MAIL : List Str :=
  (["gmail.com", "googlemail.com", "outlook.com", "hotmail.com", "live.com",
    "yahoo.com", "yahoo.co.uk", "icloud.com", "me.com", "proton.me", "protonmail.com",
    "aol.com", "gmx.com", "pm.me"] : List String).map String.toList

/-- Gmail-like providers that ignore dots and plus tags. -/
def GMAIL_LIKE : List Str := (["gmail.com", "googlemail.com"] : List String).map String.toList

/-- Embedding of classify_role_account (engine.py lines 310-313). -/
def classify_role_account (lp : Str) (roleLocals : Option (List Str)) : Bool :=
  (roleLocals.getD EMBED_ROLE_LOCAL_PARTS).contains (lp.map pyLower)

/-- Embedding of classify_free_mail (engine.py lines 315-316). -/
def classify_free_mail (domainAscii : Str) : Bool :=
  EMBED_FREE_MAIL.contains (domainAscii.map pyLower)

/-- Embedding of classify_disposable (engine.py lines 318-321); the
disposable set (loaded from a config file by the caller) is a parameter. -/
def classify_disposable (domainAscii : Str) (disposableSet : List Str) : Bool :=
  disposableSet.contains (domainAscii.map pyLower)

/-- The DEFAULT_TLD_FIX table in insertion order. -/
def DEFAULT_TLD_FIX : List (Str × Str) :=
  ([(".con", ".com"), (".cmo", ".com"), (".cim", ".com"), (".c0m", ".com"),
    (".coom", ".com"), (".nety", ".net"), (".orgg", ".org")] : List (String × String)
  ).map (fun p => (p.1.toList, p.2.toList))

/-- The DEFAULT_DOMAIN_FIX table in insertion order. -/
def DEFAULT_DOMAIN_FIX : List (Str × Str) :=
  ([("gmial.com", "gmail.com"), ("gamil.com", "gmail.com"), ("gnail.com", "gmail.com"),
    ("hotnail.com", "hotmail.com"), ("yahho.com", "yahoo.com"), ("outlok.com", "outlook.com"),
    ("faceboook.com", "facebook.com"), ("icloud.con", "icloud.com")] : List (String × String)
  ).map (fun p => (p.1.toList, p.2.toList))

/-- Embedding of suggest_tld_fix (engine.py lines 327-331): the first
table entry whose bad suffix matches rewrites the suffix. -/
def suggest_tld_fix (domainAscii : Str) : Option Str :=
  DEFAULT_TLD_FIX.findSome? (fun bg =>
    if bg.1.isSuffixOf domainAscii
    then some (domainAscii.take (domainAscii.length - bg.1.length) ++ bg.2)
    else none)

/-- Embedding of suggest_exact_domain_fix (engine.py lines 333-334). -/
def suggest_exact_domain_fix (domainAscii : Str) : Option Str :=
  (DEFAULT_DOMAIN_FIX.find? (fun kv => kv.1 == domainAscii)).map (fun kv => kv.2)

/-- Embedding of suggest_fuzzy_domain_fix (engine.py lines 336-353). The
external nearest-match backend (rapidfuzz extractOne with QRatio at
min_score 90, or the difflib fallback) is the parameter fuzzyPick; the
length guards around its candidate are the source's own. -/
def suggest_fuzzy_domain_fix (fuzzyPick : Str → List Str → Option Str)
    (domainAscii : Str) (topDomains : List Str) : Option Str :=
  if topDomains.isEmpty then none
  else
    match fuzzyPick domainAscii topDomains with
    | none => none
    | some cand =>
      if 2 < cand.length ∧ ((cand.length : ℤ) - (domainAscii.length : ℤ)).natAbs ≤ 2
      then some cand else none

/-- Embedding of collapse_local_double_dot (engine.py lines 355-358). -/
def collapse_local_double_dot (lp : Str) : Option Str :=
  if containsSub ['.', '.'] lp then some (collapseDots lp) else none

/-- The canonical domain of canonical_key: IDNA-to-ASCII, lowercased. -/
def canonicalDomain (idnaEnc : Str → Option Str) (susp : Char → Bool) (email : Str) : Str :=
  ((idna_ascii idnaEnc susp (takeDomain (normalize_email_raw email).1)).1).map pyLower

/-- The canonical local part: Gmail-like handling or plain lowercase,
then zero-width stripping. -/
def canonicalLocal (idnaEnc : Str → Option Str) (susp : Char → Bool)
    (email : Str) (providerAware : Bool) : Str :=
  (if providerAware ∧ GMAIL_LIKE.contains (canonicalDomain idnaEnc susp email) then
     ((takeLocal (normalize_email_raw email).1).takeWhile (fun c => c ≠ '+')).filter
       (fun c => c ≠ '.')
   else (takeLocal (normalize_email_raw email).1).map pyLower).filter (fun c => !isZW c)

/-- Embedding of canonical_key (engine.py lines 364-390): normalize, split,
IDNA-to-ASCII and lowercase the domain; for Gmail-like domains in
provider-aware mode truncate the local part at the first plus and strip
its dots, otherwise lowercase it; strip zero-width characters. The
encode-ascii-ignore call in the source discards its result, so it has no
effect and is not modelled. Returns none when the at-sign count of the
normalized email is not one. -/
def canonical_key (idnaEnc : Str → Option Str) (susp : Char → Bool)
    (email : Str) (providerAware : Bool) : Option Str :=
  if atCount (normalize_email_raw email).1 ≠ 1 then none
  else
    some (canonicalLocal idnaEnc susp email providerAware ++
          '@' :: canonicalDomain idnaEnc susp email)

/-- The RISK_WEIGHTS table. -/
def RISK_WEIGHTS : List (String × ℚ) :=
  [("invalid_syntax", 9/10), ("multiple_at", 7/10), ("empty_local", 7/10),
   ("empty_domain", 7/10), ("leading_trailing_dot", 5/10), ("double_dot_local", 5/10),
   ("double_dot_domain", 5/10), ("bad_tld", 8/10), ("invalid_domain_label", 7/10),
   ("unicode_confusable", 6/10), ("non_ascii_domain", 3/10), ("disposable_domain", 7/10),
   ("role_account", 3/10), ("free_mail_domain", 1/10), ("whitespace_present", 2/10)]

/-- Weight lookup with the source's default of 0.2 for unknown flags. -/
def riskWeight (r : String) : ℚ :=
  ((RISK_WEIGHTS.find? (fun kv => kv.1 == r)).map (fun kv => kv.2)).getD (2/10)

/-- Embedding of _risk_score (engine.py lines 396-397): sum of weights
over the set of distinct risk flags. -/
def _risk_score (risks : List String) : ℚ := ((risks.dedup).map riskWeight).sum

/-- The penalty term of _confidence_for: the weighted risk sum scaled by
0.15 and capped at 0.6. -/
def penaltyOf (risks : List String) : ℚ := min (6/10) (_risk_score risks * (15/100))

/-- Embedding of _confidence_for (engine.py lines 399-403). -/
def _confidence_for (action : String) (risks : List String) (fixKind : Option String) : ℚ :=
  let base : ℚ :=
    if action = "accept" ∧ risks.isEmpty then 98/100
    else if action = "fix_auto" then 9/10
    else if action = "review" then 4/10
    else 1/10
  let bonus : ℚ := if action = "fix_auto" ∧ fixKind = some "exact" then 5/100 else 0
  max (1/100) (min (99/100) (base - penaltyOf risks + bonus))

/-- Round-half-to-even to an integer, the tie behavior of Python round. -/
def rheInt (x : ℚ) : ℤ :=
  if x - ⌊x⌋ < 1/2 then ⌊x⌋
  else if (1 : ℚ)/2 < x - ⌊x⌋ then ⌊x⌋ + 1
  else if Even ⌊x⌋ then ⌊x⌋ else ⌊x⌋ + 1

/-- Python round(x, 3) on the rational embedding of the score. -/
def pyRound3 (x : ℚ) : ℚ := (rheInt (x * 1000) : ℚ) / 1000

/--
Embedding of the suggestion cascade of validate_email_deterministic
(engine.py lines 462-490), split into its stages. Steps (1)-(2): the TLD
suffix fix is computed first and the exact whole-domain fix overwrites
it, so the value is the exact fix when one exists, else the TLD fix;
both carry kind exact.
-/
def domainLevelFix (lp domainAscii : Str) : Option (Str × String) :=
  match suggest_exact_domain_fix domainAscii with
  | some e => some (lp ++ '@' :: e, "exact")
  | none =>
    match suggest_tld_fix domainAscii with
    | some t => some (lp ++ '@' :: t, "exact")
    | none => none

/-- Steps (1)-(3) of the cascade: the domain-level fix, then — only when
none was found and double_dot_local is flagged — the local collapse,
provided the collapsed local neither starts nor ends with a dot. -/
def preFuzzySuggestion (lp domainAscii : Str) (risks : List String) : Option (Str × String) :=
  if (domainLevelFix lp domainAscii).isNone ∧ risks.contains "double_dot_local" then
    match collapse_local_double_dot lp with
    | some lfix =>
      if ¬ lfix.isEmpty ∧ lfix.head? ≠ some '.' ∧ lfix.getLast? ≠ some '.' then
        some (lfix ++ '@' :: domainAscii, "local_collapse")
      else domainLevelFix lp domainAscii
    | none => domainLevelFix lp domainAscii
  else domainLevelFix lp domainAscii

/-- Step (4): the fuzzy domain fix, tried only when nothing was suggested
yet and the risks hold invalid_domain_label or bad_tld. -/
def selectSuggestion (fuzzyPick : Str → List Str → Option Str) (topDomains : List Str)
    (lp domainAscii : Str) (risks : List String) : Option (Str × String) :=
  if (preFuzzySuggestion lp domainAscii risks).isNone ∧
     (risks.contains "invalid_domain_label" ∨ risks.contains "bad_tld") then
    match suggest_fuzzy_domain_fix fuzzyPick domainAscii topDomains with
    | some fz => some (lp ++ '@' :: fz, "fuzzy_domain")
    | none => preFuzzySuggestion lp domainAscii risks
  else preFuzzySuggestion lp domainAscii risks

/-- The fundamental risk set of the decision step. -/
def FUNDAMENTAL : List String :=
  ["invalid_syntax", "multiple_at", "empty_local", "empty_domain", "invalid_domain_label"]

/-- The risky_any condition of the decision step (engine.py lines
494-495): a fundamental flag, bad_tld, or disposable_domain is present. -/
def riskyAny (risks : List String) : Bool :=
  FUNDAMENTAL.any (fun r => risks.contains r) ||
  risks.contains "bad_tld" || risks.contains "disposable_domain"

/--
Embedding of the action decision of validate_email_deterministic
(engine.py lines 497-509): role-account suppression by policy first,
then suppression when a fundamental or high risk has no safe fix, then
fix_auto when a suggestion exists, else accept. Returns the action and
the notes parts appended on that path.
-/
def decideAction (excludeRole : Bool) (risks : List String)
    (sfix : Option (Str × String)) : String × List Str :=
  if excludeRole ∧ risks.contains "role_account" then
    ("suppress", ["Role account excluded by policy".toList])
  else if riskyAny risks ∧ sfix.isNone then
    ("suppress", ["Fundamental or high-risk issue with no safe fix".toList])
  else if sfix.isSome then
    ("fix_auto", ["Suggested fix (".toList ++ ((sfix.map (fun p => p.2)).getD "None").toList ++ ")".toList])
  else ("accept", [])

/-- The medium-severity risk set of the review downgrade. -/
def MEDIUM_RISKS : List String := ["unicode_confusable", "non_ascii_domain", "role_account"]

/-- Cardinality of the intersection of the risk set with MEDIUM_RISKS. -/
def mediumCount (risks : List String) : Nat :=
  (MEDIUM_RISKS.filter (fun m => risks.contains m)).length

/-- Order-preserving insertion into a sorted list of strings. -/
def insertSorted (a : String) : List String → List String
  | [] => [a]
  | b :: t => if a ≤ b then a :: b :: t else b :: insertSorted a t

/-- Python sorted set-of-strings: distinct elements in increasing code
point order (insertion sort of the deduplicated list; on distinct
elements every comparison sort returns this list). -/
def pySortedSet (l : List String) : List String :=
  (l.dedup).foldr insertSorted []

/-- Embedding of the DeterministicResult dataclass (engine.py 118-130). -/
structure DeterministicResult where
  input_email : Str
  normalized_email : Str
  action : String
  confidence : ℚ
  risk_reasons : List String
  suggested_fix : Option Str
  notes : Str
  canonical_key : Option Str
  deriving Repr, DecidableEq

/-- The risk list of the early-return branch of validate_email_deterministic
(engine.py lines 433-434). -/
def earlyRisks (normalized : Str) : List String :=
  if atCount normalized > 1 then ["invalid_syntax", "multiple_at"] else ["invalid_syntax"]

/-- The early-return result of validate_email_deterministic for a wrong
at-sign count (engine.py lines 433-438). -/
def validate_early (email normalized : Str) (normFlags : List String) : DeterministicResult :=
  { input_email := email, normalized_email := normalized, action := "suppress",
    confidence := _confidence_for "suppress" (earlyRisks normalized) none,
    risk_reasons := pySortedSet (earlyRisks normalized ++ normFlags),
    suggested_fix := none, notes := "Invalid \x27@\x27 count".toList, canonical_key := none }

/-- The ASCII domain of the main branch (engine.py line 443). -/
def mainDomainAscii (idnaEnc : Str → Option Str) (susp : Char → Bool) (normalized : Str) : Str :=
  (idna_ascii idnaEnc susp (takeDomain normalized)).1

/-- The accumulated risk list of the main branch of
validate_email_deterministic (engine.py lines 440-460), in the order the
source appends: idna flags, domain structure, bad_tld, local part, role
account, free mail, disposable. -/
def mainRisks (idnaEnc : Str → Option Str) (susp : Char → Bool) (dset : List Str)
    (roles : Option (List Str)) (tlds : Option (List Str)) (normalized : Str) : List String :=
  (idna_ascii idnaEnc susp (takeDomain normalized)).2 ++
  validate_domain_structure (mainDomainAscii idnaEnc susp normalized) ++
  (if is_known_tld (mainDomainAscii idnaEnc susp normalized) tlds then [] else ["bad_tld"]) ++
  validate_local_part (takeLocal normalized) ++
  (if classify_role_account (takeLocal normalized) roles then ["role_account"] else []) ++
  (if classify_free_mail (mainDomainAscii idnaEnc susp normalized) then ["free_mail_domain"] else []) ++
  (if classify_disposable (mainDomainAscii idnaEnc susp normalized) dset then ["disposable_domain"] else [])

/-- The suggestion of the main branch (engine.py lines 462-490). -/
def mainSfix (idnaEnc : Str → Option Str) (susp : Char → Bool)
    (fuzzyPick : Str → List Str → Option Str) (dset : List Str) (roles : Option (List Str))
    (tops : List Str) (tlds : Option (List Str)) (normalized : Str) : Option (Str × String) :=
  selectSuggestion fuzzyPick tops (takeLocal normalized) (mainDomainAscii idnaEnc susp normalized)
    (mainRisks idnaEnc susp dset roles tlds normalized)

/-- The action, notes parts and confidence after the decision step and
the review downgrade for multiple medium risks (engine.py lines 492-519). -/
def actionNotesConf (er : Bool) (risks : List String) (sfix : Option (Str × String)) :
    String × List Str × ℚ :=
  if (decideAction er risks sfix).1 = "accept" ∧ 2 ≤ mediumCount risks then
    ("review", (decideAction er risks sfix).2 ++ ["Multiple medium risks; review recommended".toList],
     _confidence_for "review" risks none)
  else
    ((decideAction er risks sfix).1, (decideAction er risks sfix).2,
     _confidence_for (decideAction er risks sfix).1 risks (sfix.map (fun p => p.2)))

/-- The final normalized email of the main branch (engine.py line 522):
lowercased in full for free-mail domains. -/
def mainFinalEmail (lp domainAscii : Str) : Str :=
  if classify_free_mail domainAscii then (lp ++ '@' :: domainAscii).map pyLower
  else lp ++ '@' :: domainAscii

/-- The main branch of validate_email_deterministic (engine.py lines
440-538), assembled from the stage functions above. -/
def validate_main (idnaEnc : Str → Option Str) (susp : Char → Bool)
    (fuzzyPick : Str → List Str → Option Str) (er : Bool) (dset : List Str)
    (roles : Option (List Str)) (tops : List Str) (tlds : Option (List Str))
    (email normalized : Str) (normFlags : List String) : DeterministicResult :=
  { input_email := email,
    normalized_email := mainFinalEmail (takeLocal normalized) (mainDomainAscii idnaEnc susp normalized),
    action := (actionNotesConf er (mainRisks idnaEnc susp dset roles tlds normalized)
                (mainSfix idnaEnc susp fuzzyPick dset roles tops tlds normalized)).1,
    confidence := pyRound3 (actionNotesConf er (mainRisks idnaEnc susp dset roles tlds normalized)
                (mainSfix idnaEnc susp fuzzyPick dset roles tops tlds normalized)).2.2,
    risk_reasons := pySortedSet (mainRisks idnaEnc susp dset roles tlds normalized ++ normFlags),
    suggested_fix := (mainSfix idnaEnc susp fuzzyPick dset roles tops tlds normalized).map (fun p => p.1),
    notes := (List.intercalate "; ".toList
      (actionNotesConf er (mainRisks idnaEnc susp dset roles tlds normalized)
        (mainSfix idnaEnc susp fuzzyPick dset roles tops tlds normalized)).2.1).take 160,
    canonical_key :=
      if (actionNotesConf er (mainRisks idnaEnc susp dset roles tlds normalized)
           (mainSfix idnaEnc susp fuzzyPick dset roles tops tlds normalized)).1 = "suppress"
      then none
      else canonical_key idnaEnc susp
        (((mainSfix idnaEnc susp fuzzyPick dset roles tops tlds normalized).map (fun p => p.1)).getD
          (mainFinalEmail (takeLocal normalized) (mainDomainAscii idnaEnc susp normalized))) true }

/--
Embedding of validate_email_deterministic (engine.py lines 409-538).
The external idna encoder, the unicodedata script lookup and the fuzzy
matcher are the function parameters idnaEnc, susp and fuzzyPick; the
reference sets are explicit list parameters as in the Python keyword
arguments. The early return for a wrong at-sign count and the main path
are the two stage functions above.
-/
def validate_email_deterministic
    (idnaEnc : Str → Option Str) (susp : Char → Bool)
    (fuzzyPick : Str → List Str → Option Str)
    (email : Str) (excludeRole : Bool) (disposableSet : List Str)
    (roleLocals : Option (List Str)) (topDomains : List Str)
    (tldWhitelist : Option (List Str)) : DeterministicResult :=
  if atCount (normalize_email_raw email).1 ≠ 1 then
    validate_early email (normalize_email_raw email).1 (normalize_email_raw email).2
  else
    validate_main idnaEnc susp fuzzyPick excludeRole disposableSet roleLocals topDomains
      tldWhitelist email (normalize_email_raw email).1 (normalize_email_raw email).2

/-! Duplicate engine embeddings: app/array_dedupe.py and app/dedupe.py. -/

/-- Embedding of the EmailEntry dataclass (app/email_entry.py). -/
structure EmailEntry where
  sheet : String
  row_number : Nat
  col_number : Nat
  col_name : String
  raw : Str
  cleaned : Str := []
  canonical_key : Str := []
  action : String := ""
  deriving Repr, DecidableEq

/-- Embedding of EmailEntry.is_empty. -/
def EmailEntry.is_empty (e : EmailEntry) : Bool :=
  e.raw.isEmpty || e.raw == "nan".toList || e.raw == "None".toList

/-- The Python sort key tuple (sheet, row_number, col_number) under the
lexicographic tuple order Python uses. -/
def posTuple (e : EmailEntry) : String ×ₗ ℕ ×ₗ ℕ :=
  toLex (e.sheet, toLex (e.row_number, e.col_number))

/-- The comparison handed to the stable sort of deduplicate_entries
(app/array_dedupe.py line 50). -/
def posLe (a b : EmailEntry) : Bool := decide (posTuple a ≤ posTuple b)

/-- Stable sort of a duplicate group by (sheet, row_number, col_number),
as Python sorted with that key. -/
def sortGroup (g : List EmailEntry) : List EmailEntry := g.mergeSort posLe

/-- Keeper selection of deduplicate_entries (app/array_dedupe.py line 51):
the first element of the sorted group. -/
def keeperOf (g : List EmailEntry) : Option EmailEntry := (sortGroup g).head?

/-- Append a value to the group of its key, preserving first-seen key
order and per-group append order (Python defaultdict of lists). -/
def addToGroups (key : Str) (x : α) : List (Str × List α) → List (Str × List α)
  | [] => [(key, [x])]
  | (k, xs) :: rest =>
    if k == key then (k, xs ++ [x]) :: rest else (k, xs) :: addToGroups key x rest

/-- Grouping of a keyed list, first-seen key order. -/
def groupPairs (l : List (Str × α)) : List (Str × List α) :=
  l.foldl (fun gs p => addToGroups p.1 p.2 gs) []

/-- Embedding of EmailDeduplicator.generate_canonical_key
(app/dedupe.py lines 18-23). -/
def generate_canonical_key (idnaEnc : Str → Option Str) (susp : Char → Bool)
    (providerAware : Bool) (email : Str) : Str :=
  (canonical_key idnaEnc susp email providerAware).getD (email.map pyLower)

/-- Embedding of the processed-row dict consumed by
EmailDeduplicator.deduplicate_records. -/
structure PRow where
  sheet : String
  row_index : Nat
  action : String
  processed_email : Str
  canonical_key : Option Str := none
  deriving Repr, DecidableEq

/-- The canonical key of a processed row: the stored key when truthy,
otherwise generated from the processed email (app/dedupe.py lines 35-38). -/
def rowKey (idnaEnc : Str → Option Str) (susp : Char → Bool) (providerAware : Bool)
    (r : PRow) : Str :=
  match r.canonical_key with
  | some k =>
    if k.isEmpty then generate_canonical_key idnaEnc susp providerAware r.processed_email
    else k
  | none => generate_canonical_key idnaEnc susp providerAware r.processed_email

/-- One duplicate group of the report of deduplicate_records. -/
structure DupGroup where
  canonical_key : Str
  keeper : String × Nat × Str
  duplicates : List (String × Nat × Str)
  duplicate_count : Nat
  deriving Repr, DecidableEq

/-- The stable sort of a duplicate group by (sheet, row_index)
(app/dedupe.py line 49). -/
def rowSortLe (a b : PRow) : Bool := decide (toLex (a.sheet, a.row_index) ≤ toLex (b.sheet, b.row_index))

/-- The exact-deduplication stage of deduplicate_records (app/dedupe.py
lines 30-72): group the non-removed rows by canonical key and report
each group of size above one with its keeper (first of the sorted group)
and remaining duplicates. -/
def exact_dup_report (idnaEnc : Str → Option Str) (susp : Char → Bool)
    (providerAware : Bool) (rows : List PRow) : List DupGroup :=
  let keyed := (rows.filter (fun r => r.action ≠ "remove")).map
    (fun r => (rowKey idnaEnc susp providerAware r, r))
  (groupPairs keyed).filterMap (fun g =>
    if 1 < g.2.length then
      let sorted := g.2.mergeSort rowSortLe
      match sorted with
      | [] => none
      | k :: dups =>
        some { canonical_key := g.1, keeper := (k.sheet, k.row_index, k.processed_email),
               duplicates := dups.map (fun d => (d.sheet, d.row_index, d.processed_email)),
               duplicate_count := dups.length }
    else none)

/-- Inner row update of the Levenshtein loop of _edit_distance
(app/dedupe.py lines 143-151), with the row under construction kept
reversed so its head is the last appended cell. -/
def edStep (s2 : Str) (prev : List Nat) (i : Nat) (c1 : Char) : List Nat :=
  (s2.enum.foldl (fun cur jc =>
      let insertions := prev.getD (jc.1 + 1) 0 + 1
      let deletions := cur.headD 0 + 1
      let substitutions := prev.getD jc.1 0 + (if c1 = jc.2 then 0 else 1)
      min insertions (min deletions substitutions) :: cur)
    [i + 1]).reverse

/-- The non-swapping body of _edit_distance: the row-by-row Levenshtein
loop over an already-ordered pair. -/
def edRun (s1 s2 : Str) : Nat :=
  if s2.length = 0 then s1.length
  else (s1.enum.foldl (fun prev ic => edStep s2 prev ic.1 ic.2)
          (List.range (s2.length + 1))).getLastD 0

/-- Embedding of EmailDeduplicator._edit_distance (app/dedupe.py lines
135-153): row-by-row Levenshtein distance, with the single self-call
that swaps the arguments so the shorter string comes second inlined. -/
def _edit_distance (s1 s2 : Str) : Nat :=
  if s1.length < s2.length then edRun s2 s1 else edRun s1 s2

/-- Python rsplit at the last at sign, component 0 (the local part). -/
def rsplitLocal (s : Str) : Str :=
  ((s.reverse.dropWhile (fun c => c ≠ '@')).tail).reverse

/-- Python rsplit at the last at sign, component 1 (the domain part). -/
def rsplitDomain (s : Str) : Str := (s.reverse.takeWhile (fun c => c ≠ '@')).reverse

/-- Embedding of EmailDeduplicator._are_near_duplicates (app/dedupe.py
lines 111-133): domain edit distance at most 2 with length difference at
most 2, or identical lowercased domains with local-part edit distance at
most 2 and length difference at most 2. -/
def _are_near_duplicates (e1 e2 : Str) : Bool :=
  if !(e1.contains '@') || !(e2.contains '@') then false
  else
    let l1 := rsplitLocal e1
    let d1 := rsplitDomain e1
    let l2 := rsplitLocal e2
    let d2 := rsplitDomain e2
    if _edit_distance (d1.map pyLower) (d2.map pyLower) ≤ 2 ∧
       ((d1.length : ℤ) - (d2.length : ℤ)).natAbs ≤ 2 then true
    else if d1.map pyLower = d2.map pyLower then
      _edit_distance (l1.map pyLower) (l2.map pyLower) ≤ 2 ∧
      ((l1.length : ℤ) - (l2.length : ℤ)).natAbs ≤ 2
    else false

/-- One near-duplicate pair record. -/
structure NearDup where
  email1 : Str
  email2 : Str
  row1 : String × Nat
  row2 : String × Nat
  similarity : ℚ
  deriving Repr, DecidableEq

/-- All ordered pairs (i, j) with i before j, in the nested-loop order of
_find_near_duplicates. -/
def pairsAfter : List α → List (α × α)
  | [] => []
  | x :: rest => rest.map (fun y => (x, y)) ++ pairsAfter rest

/-- Embedding of EmailDeduplicator._find_near_duplicates (app/dedupe.py
lines 83-109): the difflib similarity ratio of the report records is the
parameter simRatio; above 1000 non-removed rows the stage returns the
empty list before any comparison. -/
def _find_near_duplicates (simRatio : Str → Str → ℚ) (rows : List PRow) : List NearDup :=
  if 1000 < (rows.filter (fun r => r.action ≠ "remove")).length then []
  else
    (pairsAfter (rows.filter (fun r => r.action ≠ "remove"))).filterMap (fun p =>
      if _are_near_duplicates p.1.processed_email p.2.processed_email then
        some { email1 := p.1.processed_email, email2 := p.2.processed_email,
               row1 := (p.1.sheet, p.1.row_index), row2 := (p.2.sheet, p.2.row_index),
               similarity := simRatio p.1.processed_email p.2.processed_email }
      else none)

/-- The result dict of deduplicate_records (duplicates report and
near-duplicate list; the canonical mapping is keeper-per-key and is
derivable from the report). -/
structure DedupResult where
  duplicates_report : List DupGroup
  near_duplicates : List NearDup
  deriving Repr, DecidableEq

/-- Embedding of EmailDeduplicator.deduplicate_records (app/dedupe.py
lines 25-81): exact dedup by canonical key plus the near-duplicate scan. -/
def deduplicate_records (idnaEnc : Str → Option Str) (susp : Char → Bool)
    (providerAware : Bool) (simRatio : Str → Str → ℚ) (rows : List PRow) : DedupResult :=
  { duplicates_report := exact_dup_report idnaEnc susp providerAware rows,
    near_duplicates := _find_near_duplicates simRatio rows }

/-! Concrete instantiations of the external-library parameters, used by
counterexamples and witnesses. -/

/-- An idna encoder instance that always reports an IDNAError; all the
concrete inputs below have ASCII domains, for which the engine never
consults the encoder. -/
def stubIdna : Str → Option Str := fun _ => none

/-- A unicodedata script lookup instance reporting no suspicious script. -/
def stubSusp : Char → Bool := fun _ => false

/-- A fuzzy matcher instance that finds no candidate. -/
def stubFuzzy : Str → List Str → Option Str := fun _ _ => none

/-- The common-domain list of the C1 counterexample. -/
def c1tops : List Str := ["example.xyz".toList]

/-- A fuzzy matcher agreeing with the real backends on the C1 input:
QRatio of example.xyzz against example.xyz is about 96, clearing the
min_score of 90 (difflib ratio 22/23 likewise clears 0.9), so extractOne
returns the sole candidate. Elsewhere it returns no candidate. -/
def c1fuzzy : Str → List Str → Option Str := fun d ts =>
  if d == "example.xyzz".toList then ts.head? else none

/-- A concrete entry for the C4 witness. -/
def c4e1 : EmailEntry :=
  { sheet := "S1", row_number := 2, col_number := 1, col_name := "Email",
    raw := "a@b.com".toList }

/-- A second concrete entry for the C4 witness, later in the sheet. -/
def c4e2 : EmailEntry :=
  { sheet := "S1", row_number := 5, col_number := 1, col_name := "Email",
    raw := "c@d.com".toList }

/-- A concrete processed row for the C9 witness. -/
def c9row : PRow :=
  { sheet := "S1", row_index := 1, action := "accept", processed_email := "a@b.com".toList }

/-- Domains made of lowercase ASCII letters, digits, dots and hyphens,
nonempty, with no trailing dot and no consecutive dots: on these every
normalization step is the identity. -/
def plainLowerDomain (d : Str) : Bool :=
  d.all (fun c => (97 ≤ c.toNat ∧ c.toNat ≤ 122) ∨ (48 ≤ c.toNat ∧ c.toNat ≤ 57) ∨
                  c = '.' ∨ c = '-') &&
  !d.isEmpty && d.getLast? ≠ some '.' && !containsSub ['.', '.'] d

/-! Character-level lemmas. -/

theorem toNat_ofNat_valid (n : Nat) (h : n < 55296) : (Char.ofNat n).toNat = n := by
  unfold Char.ofNat
  rw [dif_pos (Or.inl h)]
  rfl

theorem pyLower_toNat (c : Char) :
    (pyLower c).toNat = if 65 ≤ c.toNat ∧ c.toNat ≤ 90 then c.toNat + 32 else c.toNat := by
  unfold pyLower
  split_ifs with h
  · have : c.toNat + 32 < 55296 := by
      have := h.2
      omega
    exact toNat_ofNat_valid _ this
  · rfl

theorem pyLower_fix (d : Char) (hd : ¬ (65 ≤ d.toNat ∧ d.toNat ≤ 90)) : pyLower d = d := by
  unfold pyLower
  rw [if_neg hd]

theorem pyLower_idem (c : Char) : pyLower (pyLower c) = pyLower c := by
  by_cases h : 65 ≤ c.toNat ∧ c.toNat ≤ 90
  · apply pyLower_fix
    rw [pyLower_toNat, if_pos h]
    omega
  · rw [pyLower_fix c h]
    exact pyLower_fix c h

theorem pyLower_eq_iff (a : Char) (ha : a.toNat < 65 ∨ 122 < a.toNat) (c : Char) :
    pyLower c = a ↔ c = a := by
  constructor
  · intro h
    by_cases hc : 65 ≤ c.toNat ∧ c.toNat ≤ 90
    · exfalso
      have ht := congrArg Char.toNat h
      rw [pyLower_toNat, if_pos hc] at ht
      omega
    · rwa [pyLower_fix c hc] at h
  · intro h
    subst h
    exact pyLower_fix _ (by omega)

theorem isPySpace_pyLower (c : Char) : isPySpace (pyLower c) = isPySpace c := by
  by_cases h : 65 ≤ c.toNat ∧ c.toNat ≤ 90
  · have h1 : (pyLower c).toNat = c.toNat + 32 := by rw [pyLower_toNat, if_pos h]
    simp only [isPySpace, h1]
    rw [decide_eq_decide]
    omega
  · rw [pyLower_fix c h]

theorem isZW_pyLower (c : Char) : isZW (pyLower c) = isZW c := by
  by_cases h : 65 ≤ c.toNat ∧ c.toNat ≤ 90
  · have h1 : (pyLower c).toNat = c.toNat + 32 := by rw [pyLower_toNat, if_pos h]
    simp only [isZW, h1]
    rw [decide_eq_decide]
    omega
  · rw [pyLower_fix c h]

/-! List-level lemmas: strip, replace, collapse, counting. -/

theorem dropWhile_eq_self_of_all (p : Char → Bool) (s : Str) (h : ∀ c ∈ s, p c = false) :
    s.dropWhile p = s := by
  cases s with
  | nil => rfl
  | cons c t => simp [List.dropWhile_cons, h c (List.mem_cons_self c t)]

theorem stripBoth_eq_self_of_all (p : Char → Bool) (s : Str) (h : ∀ c ∈ s, p c = false) :
    stripBoth p s = s := by
  unfold stripBoth dropWhileRight
  rw [dropWhile_eq_self_of_all p s h,
      dropWhile_eq_self_of_all p s.reverse (fun c hc => h c (List.mem_reverse.mp hc)),
      List.reverse_reverse]

theorem dropWhile_head_false (p : Char → Bool) :
    ∀ (s : Str) (c : Char) (t : Str), s.dropWhile p = c :: t → p c = false := by
  intro s
  induction s with
  | nil => intro c t h; cases h
  | cons d u ih =>
    intro c t h
    rw [List.dropWhile_cons] at h
    by_cases hd : p d = true
    · rw [if_pos hd] at h
      exact ih c t h
    · rw [if_neg hd] at h
      cases h
      exact eq_false_of_ne_true hd

theorem replaceSubGo_nil (pat rep : Str) (n : Nat) : replaceSubGo pat rep n [] = [] := by
  cases n <;> rfl

theorem replaceSubGo_skip (pat rep : Str) (skip : Nat) (c : Char) (t : Str) :
    replaceSubGo pat rep (skip + 1) (c :: t) = replaceSubGo pat rep skip t := rfl

theorem replaceSubGo_zero_cons (pat rep : Str) (c : Char) (t : Str) :
    replaceSubGo pat rep 0 (c :: t) =
      if pat.isPrefixOf (c :: t) ∧ ¬ pat.isEmpty then
        rep ++ replaceSubGo pat rep (pat.length - 1) t
      else c :: replaceSubGo pat rep 0 t := rfl

theorem replaceSub_of_notMem (pat rep : Str) (c0 : Char) (hc0 : c0 ∈ pat) :
    ∀ s : Str, c0 ∉ s → replaceSub pat rep s = s := by
  unfold replaceSub
  intro s
  induction s with
  | nil => intro _; rfl
  | cons c t ih =>
    intro h
    rw [replaceSubGo_zero_cons]
    have hnp : ¬ (pat.isPrefixOf (c :: t) = true ∧ ¬ pat.isEmpty = true) := by
      intro hp
      exact h ((List.isPrefixOf_iff_prefix.mp hp.1).subset hc0)
    rw [if_neg hnp, ih (fun hm => h (List.mem_cons_of_mem c hm))]

theorem replaceSubGo_self (pat : Str) :
    ∀ (s : Str) (n : Nat), replaceSubGo pat pat n s = s.drop n := by
  intro s
  induction s with
  | nil => intro n; rw [replaceSubGo_nil, List.drop_nil]
  | cons c t ih =>
    intro n
    cases n with
    | succ skip => rw [replaceSubGo_skip, List.drop_succ_cons]; exact ih skip
    | zero =>
      rw [List.drop_zero, replaceSubGo_zero_cons]
      by_cases hp : pat.isPrefixOf (c :: t) = true ∧ ¬ pat.isEmpty = true
      · rw [if_pos hp, ih (pat.length - 1)]
        have heq := List.prefix_iff_eq_append.mp (List.isPrefixOf_iff_prefix.mp hp.1)
        have hlen : 1 ≤ pat.length := by
          cases pat with
          | nil => simp at hp
          | cons a l => simp
        obtain ⟨m, hm⟩ : ∃ m, pat.length = m + 1 := ⟨pat.length - 1, by omega⟩
        rw [← heq, hm, List.drop_succ_cons]
        simp
      · rw [if_neg hp, ih 0, List.drop_zero]

theorem replaceSub_self (pat s : Str) : replaceSub pat pat s = s := by
  unfold replaceSub
  rw [replaceSubGo_self, List.drop_zero]

theorem mem_replaceSubGo (pat rep : Str) :
    ∀ (s : Str) (n : Nat) (c : Char), c ∈ replaceSubGo pat rep n s → c ∈ s ∨ c ∈ rep := by
  intro s
  induction s with
  | nil =>
    intro n c h
    rw [replaceSubGo_nil] at h
    cases h
  | cons d t ih =>
    intro n c h
    cases n with
    | succ skip =>
      rw [replaceSubGo_skip] at h
      rcases ih skip c h with h1 | h1
      · exact Or.inl (List.mem_cons_of_mem d h1)
      · exact Or.inr h1
    | zero =>
      rw [replaceSubGo_zero_cons] at h
      by_cases hp : pat.isPrefixOf (d :: t) = true ∧ ¬ pat.isEmpty = true
      · rw [if_pos hp] at h
        rcases List.mem_append.mp h with h1 | h1
        · exact Or.inr h1
        · rcases ih (pat.length - 1) c h1 with h2 | h2
          · exact Or.inl (List.mem_cons_of_mem d h2)
          · exact Or.inr h2
      · rw [if_neg hp] at h
        rcases List.mem_cons.mp h with rfl | h1
        · exact Or.inl (List.mem_cons_self _ _)
        · rcases ih 0 c h1 with h2 | h2
          · exact Or.inl (List.mem_cons_of_mem d h2)
          · exact Or.inr h2

theorem mem_replaceSub (pat rep s : Str) (c : Char) (h : c ∈ replaceSub pat rep s) :
    c ∈ s ∨ c ∈ rep := mem_replaceSubGo pat rep s 0 c h

theorem count_replaceSubGo (pat rep : Str) (a : Char) (ha1 : a ∉ pat) (ha2 : a ∉ rep) :
    ∀ (s : Str) (n : Nat), (replaceSubGo pat rep n s).count a = (s.drop n).count a := by
  intro s
  induction s with
  | nil => intro n; rw [replaceSubGo_nil, List.drop_nil]
  | cons d t ih =>
    intro n
    cases n with
    | succ skip => rw [replaceSubGo_skip, List.drop_succ_cons]; exact ih skip
    | zero =>
      rw [List.drop_zero, replaceSubGo_zero_cons]
      by_cases hp : pat.isPrefixOf (d :: t) = true ∧ ¬ pat.isEmpty = true
      · rw [if_pos hp, List.count_append, ih (pat.length - 1),
            List.count_eq_zero.mpr ha2]
        have heq := List.prefix_iff_eq_append.mp (List.isPrefixOf_iff_prefix.mp hp.1)
        have hlen : 1 ≤ pat.length := by
          cases pat with
          | nil => simp at hp
          | cons x l => simp
        obtain ⟨m, hm⟩ : ∃ m, pat.length = m + 1 := ⟨pat.length - 1, by omega⟩
        conv_rhs => rw [← heq]
        rw [List.count_append, List.count_eq_zero.mpr ha1, hm, List.drop_succ_cons]
        simp
      · rw [if_neg hp]
        simp only [List.count_cons]
        rw [ih 0, List.drop_zero]

theorem count_replaceSub (pat rep s : Str) (a : Char) (ha1 : a ∉ pat) (ha2 : a ∉ rep) :
    (replaceSub pat rep s).count a = s.count a := by
  unfold replaceSub
  rw [count_replaceSubGo pat rep a ha1 ha2 s 0, List.drop_zero]

theorem collapseDotsGo_cons (b : Bool) (d : Char) (t : Str) :
    collapseDotsGo b (d :: t) =
      if d = '.' then (if b then collapseDotsGo true t else '.' :: collapseDotsGo true t)
      else d :: collapseDotsGo false t := rfl

theorem mem_collapseDotsGo : ∀ (s : Str) (b : Bool) (c : Char),
    c ∈ collapseDotsGo b s → c ∈ s := by
  intro s
  induction s with
  | nil => intro b c h; cases h
  | cons d t ih =>
    intro b c h
    rw [collapseDotsGo_cons] at h
    by_cases hd : d = '.'
    · rw [if_pos hd] at h
      cases b with
      | true => exact List.mem_cons_of_mem d (ih true c h)
      | false =>
        rcases List.mem_cons.mp h with rfl | h1
        · rw [hd]; exact List.mem_cons_self _ _
        · exact List.mem_cons_of_mem d (ih true c h1)
    · rw [if_neg hd] at h
      rcases List.mem_cons.mp h with rfl | h1
      · exact List.mem_cons_self _ _
      · exact List.mem_cons_of_mem d (ih false c h1)

theorem count_collapseDotsGo (a : Char) (ha : ¬ a = '.') :
    ∀ (s : Str) (b : Bool), (collapseDotsGo b s).count a = s.count a := by
  intro s
  induction s with
  | nil => intro b; rfl
  | cons d t ih =>
    intro b
    rw [collapseDotsGo_cons]
    by_cases hd : d = '.'
    · rw [if_pos hd]
      have hda : ¬ (d == a) = true := by
        simp only [beq_iff_eq]
        intro h
        exact ha (by rw [← h, hd])
      cases b with
      | true =>
        rw [if_pos rfl, ih true]
        simp [List.count_cons, hda]
      | false =>
        rw [if_neg Bool.false_ne_true]
        have hpa : ¬ (('.' : Char) == a) = true := by
          simp only [beq_iff_eq]
          exact fun h => ha h.symm
        simp [List.count_cons, ih true, hda, hpa]
    · rw [if_neg hd]
      simp [List.count_cons, ih false]

theorem collapseDotsGo_eq_nil : ∀ (s : Str) (b : Bool),
    collapseDotsGo b s = [] → ∀ c ∈ s, c = '.' := by
  intro s
  induction s with
  | nil => intro b _ c hc; cases hc
  | cons d t ih =>
    intro b h c hc
    rw [collapseDotsGo_cons] at h
    by_cases hd : d = '.'
    · rw [if_pos hd] at h
      cases b with
      | true =>
        rcases List.mem_cons.mp hc with rfl | h1
        · exact hd
        · exact ih true h c h1
      | false => cases h
    · rw [if_neg hd] at h
      cases h

theorem all_dot_getLast : ∀ (t : Str), t ≠ [] → (∀ c ∈ t, c = '.') →
    t.getLast? = some '.' := by
  intro t
  induction t with
  | nil => intro h; exact absurd rfl h
  | cons d u ih =>
    intro _ hall
    cases u with
    | nil => rw [hall d (List.mem_cons_self _ _)]; rfl
    | cons e v =>
      rw [List.getLast?_cons_cons]
      exact ih (by simp) (fun c hc => hall c (List.mem_cons_of_mem d hc))

theorem collapseDotsGo_getLast : ∀ (s : Str), s.getLast? ≠ some '.' →
    ∀ b, (collapseDotsGo b s).getLast? ≠ some '.' := by
  intro s
  induction s with
  | nil => intro _ b; simp [collapseDotsGo]
  | cons d t ih =>
    intro hs b
    rw [collapseDotsGo_cons]
    cases t with
    | nil =>
      have hd : d ≠ '.' := by
        intro h
        exact hs (by rw [h]; rfl)
      rw [if_neg hd]
      simpa [collapseDotsGo] using hd
    | cons e u =>
      have hlast : (e :: u).getLast? ≠ some '.' := by
        rwa [List.getLast?_cons_cons] at hs
      have hne : collapseDotsGo true (e :: u) = [] → False := by
        intro hnil
        exact hlast (all_dot_getLast _ (by simp) (collapseDotsGo_eq_nil _ true hnil))
      by_cases hd : d = '.'
      · rw [if_pos hd]
        cases b with
        | true =>
          rw [if_pos rfl]
          exact ih hlast true
        | false =>
          rw [if_neg Bool.false_ne_true]
          rcases hx : collapseDotsGo true (e :: u) with _ | ⟨y, z⟩
          · exact absurd hx hne
          · rw [List.getLast?_cons_cons, ← hx]
            exact ih hlast true
      · rw [if_neg hd]
        have hne2 : collapseDotsGo false (e :: u) = [] → False := by
          intro hnil
          exact hlast (all_dot_getLast _ (by simp) (collapseDotsGo_eq_nil _ false hnil))
        rcases hx : collapseDotsGo false (e :: u) with _ | ⟨y, z⟩
        · exact absurd hx hne2
        · rw [List.getLast?_cons_cons, ← hx]
          exact ih hlast false

theorem collapseDotsGo_head_true : ∀ (s : Str) (c : Char) (t : Str),
    collapseDotsGo true s = c :: t → c ≠ '.' := by
  intro s
  induction s with
  | nil => intro c t h; cases h
  | cons d u ih =>
    intro c t h
    rw [collapseDotsGo_cons] at h
    by_cases hd : d = '.'
    · rw [if_pos hd] at h
      exact ih c t h
    · rw [if_neg hd] at h
      cases h
      exact hd

theorem containsSub_cons (pat : Str) (c : Char) (t : Str) :
    containsSub pat (c :: t) = (pat.isPrefixOf (c :: t) || containsSub pat t) := rfl

theorem containsSub_dd_cons (c : Char) (t : Str) :
    containsSub ['.', '.'] (c :: t) = true ↔
      ((c = '.' ∧ t.head? = some '.') ∨ containsSub ['.', '.'] t = true) := by
  rw [containsSub_cons]
  cases t with
  | nil =>
    have hpre : List.isPrefixOf ['.', '.'] ([c]) = false := by simp [List.isPrefixOf]
    rw [hpre]
    simp [containsSub]
  | cons e u =>
    have hpre : List.isPrefixOf ['.', '.'] (c :: e :: u) = (('.' == c) && ('.' == e)) := by
      simp [List.isPrefixOf]
    rw [hpre]
    simp only [Bool.or_eq_true, Bool.and_eq_true, beq_iff_eq,
      List.head?_cons, Option.some.injEq]
    constructor
    · rintro (⟨h1, h2⟩ | h)
      · exact Or.inl ⟨h1.symm, h2.symm⟩
      · exact Or.inr h
    · rintro (⟨h1, h2⟩ | h)
      · exact Or.inl ⟨h1.symm, h2.symm⟩
      · exact Or.inr h

theorem collapseDotsGo_ddFree : ∀ (s : Str) (b : Bool),
    containsSub ['.', '.'] (collapseDotsGo b s) = false := by
  intro s
  induction s with
  | nil => intro b; rfl
  | cons d t ih =>
    intro b
    rw [collapseDotsGo_cons]
    by_cases hd : d = '.'
    · rw [if_pos hd]
      cases b with
      | true => exact ih true
      | false =>
        rw [Bool.eq_false_iff]
        intro hcon
        rcases (containsSub_dd_cons _ _).mp hcon with ⟨_, hh⟩ | hrest
        · rcases hx : collapseDotsGo true t with _ | ⟨y, z⟩
          · rw [hx] at hh; cases hh
          · rw [hx, List.head?_cons] at hh
            exact collapseDotsGo_head_true t y z hx (Option.some.inj hh)
        · rw [ih true] at hrest; cases hrest
    · rw [if_neg hd]
      rw [Bool.eq_false_iff]
      intro hcon
      rcases (containsSub_dd_cons _ _).mp hcon with ⟨hd2, _⟩ | hrest
      · exact hd hd2
      · rw [ih false] at hrest; cases hrest

/-! Numeric range lemmas for the confidence heuristic. -/

theorem confidence_for_bounds (a : String) (risks : List String) (fk : Option String) :
    1/100 ≤ _confidence_for a risks fk ∧ _confidence_for a risks fk ≤ 99/100 := by
  unfold _confidence_for
  exact ⟨le_max_left _ _, max_le (by norm_num) (min_le_left _ _)⟩

theorem rheInt_bounds {x : ℚ} {lo hi : ℤ} (h1 : (lo : ℚ) ≤ x) (h2 : x ≤ (hi : ℚ)) :
    lo ≤ rheInt x ∧ rheInt x ≤ hi := by
  have hfl : lo ≤ ⌊x⌋ := Int.le_floor.mpr h1
  have hcu : ⌈x⌉ ≤ hi := Int.ceil_le.mpr h2
  have hfc : ⌊x⌋ ≤ ⌈x⌉ := Int.floor_le_ceil x
  have hkey : ¬ (x - ⌊x⌋ < 1/2) → ⌊x⌋ + 1 ≤ ⌈x⌉ := by
    intro h
    have hhalf : (1 : ℚ)/2 ≤ x - ⌊x⌋ := not_lt.mp h
    have hx : (⌊x⌋ : ℚ) < x := by linarith
    have hq : (⌊x⌋ : ℚ) < (⌈x⌉ : ℚ) := lt_of_lt_of_le hx (Int.le_ceil x)
    have hz : ⌊x⌋ < ⌈x⌉ := by exact_mod_cast hq
    omega
  unfold rheInt
  split_ifs with hA hB hC
  · exact ⟨hfl, le_trans hfc hcu⟩
  · have := hkey hA
    omega
  · exact ⟨hfl, le_trans hfc hcu⟩
  · have := hkey hA
    omega

theorem pyRound3_bounds {x : ℚ} (h1 : 1/100 ≤ x) (h2 : x ≤ 99/100) :
    1/100 ≤ pyRound3 x ∧ pyRound3 x ≤ 99/100 := by
  have ha : ((10 : ℤ) : ℚ) ≤ x * 1000 := by push_cast; linarith
  have hb : x * 1000 ≤ ((990 : ℤ) : ℚ) := by push_cast; linarith
  have h := rheInt_bounds ha hb
  have hlo : ((10 : ℤ) : ℚ) ≤ ((rheInt (x * 1000) : ℤ) : ℚ) := by exact_mod_cast h.1
  have hhi : ((rheInt (x * 1000) : ℤ) : ℚ) ≤ ((990 : ℤ) : ℚ) := by exact_mod_cast h.2
  unfold pyRound3
  push_cast at hlo hhi
  constructor
  · rw [le_div_iff₀ (by norm_num : (0:ℚ) < 1000)]
    linarith
  · rw [div_le_iff₀ (by norm_num : (0:ℚ) < 1000)]
    linarith

theorem actionNotesConf_conf_bounds (er : Bool) (risks : List String)
    (sfix : Option (Str × String)) :
    1/100 ≤ (actionNotesConf er risks sfix).2.2 ∧ (actionNotesConf er risks sfix).2.2 ≤ 99/100 := by
  unfold actionNotesConf
  split
  · exact confidence_for_bounds _ _ _
  · exact confidence_for_bounds _ _ _

/--
Claim C5: for every input address and configuration, the confidence
score of the decision engine result lies in the closed interval
[0.01, 0.99], and the risk-flag penalty subtracted from the per-action
base value never exceeds 0.6.
-/
theorem claim_C5 (idnaEnc : Str → Option Str) (susp : Char → Bool)
    (fuzzyPick : Str → List Str → Option Str) (email : Str) (er : Bool)
    (dset : List Str) (roles : Option (List Str)) (tops : List Str)
    (tlds : Option (List Str)) :
    (1/100 ≤ (validate_email_deterministic idnaEnc susp fuzzyPick email er dset roles tops tlds).confidence ∧
     (validate_email_deterministic idnaEnc susp fuzzyPick email er dset roles tops tlds).confidence ≤ 99/100) ∧
    (∀ risks : List String, penaltyOf risks ≤ 6/10) := by
  refine ⟨?_, fun risks => min_le_left _ _⟩
  unfold validate_email_deterministic
  split
  · exact confidence_for_bounds _ _ _
  · simp only [validate_main]
    exact pyRound3_bounds (actionNotesConf_conf_bounds _ _ _).1 (actionNotesConf_conf_bounds _ _ _).2

/-! Properties of the suggestion cascade. -/

theorem domainLevelFix_kind (lp d : Str) (p : Str × String)
    (hp : domainLevelFix lp d = some p) : p.2 = "exact" := by
  unfold domainLevelFix at hp
  rcases h1 : suggest_exact_domain_fix d with _ | e
  · rw [h1] at hp
    rcases h2 : suggest_tld_fix d with _ | t
    · rw [h2] at hp; cases hp
    · rw [h2] at hp; cases hp; rfl
  · rw [h1] at hp; cases hp; rfl

theorem domainLevelFix_none (lp d : Str) (h : domainLevelFix lp d = none) :
    suggest_tld_fix d = none ∧ suggest_exact_domain_fix d = none := by
  unfold domainLevelFix at h
  rcases h1 : suggest_exact_domain_fix d with _ | e
  · rw [h1] at h
    rcases h2 : suggest_tld_fix d with _ | t
    · exact ⟨rfl, rfl⟩
    · rw [h2] at h; cases h
  · rw [h1] at h; cases h

theorem preFuzzySuggestion_kind (lp d : Str) (risks : List String) (p : Str × String)
    (hp : preFuzzySuggestion lp d risks = some p) :
    p.2 = "exact" ∨ p.2 = "local_collapse" := by
  unfold preFuzzySuggestion at hp
  by_cases h1 : (domainLevelFix lp d).isNone = true ∧ risks.contains "double_dot_local" = true
  · rw [if_pos h1] at hp
    rcases hc : collapse_local_double_dot lp with _ | lfix
    · rw [hc] at hp
      exact Or.inl (domainLevelFix_kind lp d p hp)
    · rw [hc] at hp
      dsimp only at hp
      by_cases h2 : ¬ lfix.isEmpty = true ∧ lfix.head? ≠ some '.' ∧ lfix.getLast? ≠ some '.'
      · rw [if_pos h2] at hp
        have hq := Option.some.inj hp
        exact Or.inr (by rw [← hq])
      · rw [if_neg h2] at hp
        exact Or.inl (domainLevelFix_kind lp d p hp)
  · rw [if_neg h1] at hp
    exact Or.inl (domainLevelFix_kind lp d p hp)

theorem preFuzzySuggestion_of_domainFix (lp d : Str) (risks : List String)
    (p : Str × String) (hp : domainLevelFix lp d = some p) :
    preFuzzySuggestion lp d risks = some p := by
  unfold preFuzzySuggestion
  rw [hp]
  simp

theorem selectSuggestion_of_pre (fz : Str → List Str → Option Str) (tops : List Str)
    (lp d : Str) (risks : List String) (p : Str × String)
    (hp : preFuzzySuggestion lp d risks = some p) :
    selectSuggestion fz tops lp d risks = some p := by
  unfold selectSuggestion
  rw [hp]
  simp

/--
Claim C8: the correction cascade applies its priority order with first
match winning. When an exact whole-domain fix applies it is the carried
suggestion, even when a TLD suffix fix also applies; a local_collapse
suggestion can be carried only when both domain-level fixes failed; a
fuzzy_domain suggestion can be carried only when steps (1)-(3) produced
nothing; and the cascade carries at most one suggestion.
-/
theorem claim_C8 (fz : Str → List Str → Option Str) (tops : List Str)
    (lp d : Str) (risks : List String) :
    (∀ e, suggest_exact_domain_fix d = some e →
        selectSuggestion fz tops lp d risks = some (lp ++ '@' :: e, "exact")) ∧
    (∀ x, selectSuggestion fz tops lp d risks = some (x, "local_collapse") →
        suggest_tld_fix d = none ∧ suggest_exact_domain_fix d = none) ∧
    (∀ x, selectSuggestion fz tops lp d risks = some (x, "fuzzy_domain") →
        preFuzzySuggestion lp d risks = none) ∧
    (∀ p q, selectSuggestion fz tops lp d risks = some p →
        selectSuggestion fz tops lp d risks = some q → p = q) := by
  refine ⟨?_, ?_, ?_, ?_⟩
  · intro e he
    have hd : domainLevelFix lp d = some (lp ++ '@' :: e, "exact") := by
      unfold domainLevelFix; rw [he]
    exact selectSuggestion_of_pre fz tops lp d risks _
      (preFuzzySuggestion_of_domainFix lp d risks _ hd)
  · intro x h
    rcases hp : preFuzzySuggestion lp d risks with _ | p
    · unfold selectSuggestion at h
      rw [hp] at h
      split at h
      · rcases hf : suggest_fuzzy_domain_fix fz d tops with _ | c
        · rw [hf] at h; cases h
        · rw [hf] at h
          have hk := congrArg Prod.snd (Option.some.inj h)
          simp at hk
      · cases h
    · have hs := selectSuggestion_of_pre fz tops lp d risks p hp
      rw [hs] at h
      obtain rfl : p = (x, "local_collapse") := Option.some.inj h
      rcases preFuzzySuggestion_kind lp d risks _ hp with hk | hk
      · simp at hk
      · -- the carried suggestion is the local collapse, so the domain fix was none
        unfold preFuzzySuggestion at hp
        by_cases h1 : (domainLevelFix lp d).isNone = true ∧ risks.contains "double_dot_local" = true
        · exact domainLevelFix_none lp d (Option.isNone_iff_eq_none.mp h1.1)
        · rw [if_neg h1] at hp
          have hk := domainLevelFix_kind lp d _ hp
          simp at hk
  · intro x h
    rcases hp : preFuzzySuggestion lp d risks with _ | p
    · rfl
    · have hs := selectSuggestion_of_pre fz tops lp d risks p hp
      rw [hs] at h
      obtain rfl : p = (x, "fuzzy_domain") := Option.some.inj h
      rcases preFuzzySuggestion_kind lp d risks _ hp with hk | hk <;> simp at hk
  · intro p q hp hq
    rw [hp] at hq
    exact Option.some.inj hq

/-- Claim C8 witness: on icloud.con both the TLD suffix table and the
whole-domain table apply, and the carried suggestion is the whole-domain
one (they agree on the rewritten domain, as the source tables do). -/
theorem claim_C8_witness :
    suggest_tld_fix ("icloud.con".toList) = some ("icloud.com".toList) ∧
    suggest_exact_domain_fix ("icloud.con".toList) = some ("icloud.com".toList) ∧
    selectSuggestion stubFuzzy [] ("a".toList) ("icloud.con".toList) [] =
      some ("a".toList ++ '@' :: "icloud.com".toList, "exact") := by
  refine ⟨by decide, by decide, ?_⟩
  exact (claim_C8 stubFuzzy [] ("a".toList) ("icloud.con".toList) []).1 _ (by decide)

/--
Claim C1 counterexample: on user@example.xyzz with common-domain list
[example.xyz], the risk set holds bad_tld (the engine's name for the
spec's invalid_tld), a qualifying fuzzy correction to example.xyz is
available (the real matcher scores it about 96, above min_score 90, and
the length guards pass), the fix does not repair the TLD (xyz is not in
the whitelist either), and the action is fix_auto — not suppress as the
claim requires.
-/
theorem claim_C1_counterexample :
    (validate_email_deterministic stubIdna stubSusp c1fuzzy ("user@example.xyzz".toList)
      false [] none c1tops none).risk_reasons.contains "bad_tld" = true ∧
    (validate_email_deterministic stubIdna stubSusp c1fuzzy ("user@example.xyzz".toList)
      false [] none c1tops none).suggested_fix = some ("user@example.xyz".toList) ∧
    is_known_tld ("example.xyz".toList) none = false ∧
    (validate_email_deterministic stubIdna stubSusp c1fuzzy ("user@example.xyzz".toList)
      false [] none c1tops none).action = "fix_auto" := by
  refine ⟨?_, ?_, ?_, ?_⟩ <;> rfl

/--
Claim C1 amended: when the risk set holds bad_tld and role-account
suppression does not apply, the decision step yields fix_auto whenever a
suggestion (such as a qualifying fuzzy correction) is available — even
one that does not resolve the bad TLD — and yields suppress exactly when
no suggestion is available. Fix availability takes precedence over
fundamental-risk suppression, not the other way around.
-/
theorem claim_C1_amended (er : Bool) (risks : List String) (sfix : Option (Str × String))
    (hrole : ¬ (er = true ∧ risks.contains "role_account" = true))
    (htld : risks.contains "bad_tld" = true) :
    (sfix.isSome = true → (decideAction er risks sfix).1 = "fix_auto") ∧
    (sfix = none → (decideAction er risks sfix).1 = "suppress") := by
  have hrisky : riskyAny risks = true := by
    unfold riskyAny
    rw [htld]
    simp
  unfold decideAction
  rw [if_neg hrole]
  constructor
  · intro hs
    have hnn : ¬ (riskyAny risks = true ∧ sfix.isNone = true) := by
      intro hcon
      rw [Option.isSome_iff_ne_none] at hs
      exact hs (Option.isNone_iff_eq_none.mp hcon.2)
    rw [if_neg hnn, if_pos hs]
  · intro hn
    subst hn
    rw [if_pos ⟨hrisky, rfl⟩]

/-- Claim C1 amended witness: with risks [bad_tld], no role exclusion,
and a fuzzy suggestion present, the action is fix_auto; with no
suggestion it is suppress. -/
theorem claim_C1_amended_witness :
    (decideAction false ["bad_tld"] (some ("a@b.com".toList, "fuzzy_domain"))).1 = "fix_auto" ∧
    (decideAction false ["bad_tld"] none).1 = "suppress" :=
  ⟨(claim_C1_amended false ["bad_tld"] (some ("a@b.com".toList, "fuzzy_domain"))
      (by decide) (by decide)).1 rfl,
   (claim_C1_amended false ["bad_tld"] none (by decide) (by decide)).2 rfl⟩

/--
Claim C7 counterexample: on the well-formed address user@example.com the
action is accept and the notes string is empty, so the reason/notes
string is not populated on every path.
-/
theorem claim_C7_counterexample :
    (validate_email_deterministic stubIdna stubSusp stubFuzzy ("user@example.com".toList)
      false [] none [] none).action = "accept" ∧
    (validate_email_deterministic stubIdna stubSusp stubFuzzy ("user@example.com".toList)
      false [] none [] none).notes = [] := by
  refine ⟨?_, ?_⟩ <;> rfl

/--
Claim C6: with provider-aware mode on, a.b+x@gmail.com and ab@gmail.com
receive the same canonical key (dots stripped, plus tag truncated for
Gmail-equivalent domains); with provider-aware mode off the canonical
key of the already-normalized a.b+x@gmail.com is the address itself,
dots and plus tag intact. The idna encoder and script lookup are
arbitrary: the domain is ASCII, so the engine never consults them.
-/
theorem claim_C6 (idnaEnc : Str → Option Str) (susp : Char → Bool) :
    (canonical_key idnaEnc susp ("a.b+x@gmail.com".toList) true =
     canonical_key idnaEnc susp ("ab@gmail.com".toList) true) ∧
    (canonical_key idnaEnc susp ("a.b+x@gmail.com".toList) false =
     some ("a.b+x@gmail.com".toList)) := by
  refine ⟨?_, ?_⟩ <;> rfl

/-! Keeper selection (claim C4). -/

theorem posLe_trans (a b c : EmailEntry) (hab : posLe a b = true) (hbc : posLe b c = true) :
    posLe a c = true := by
  simp only [posLe, decide_eq_true_eq] at *
  exact le_trans hab hbc

theorem posLe_total (a b : EmailEntry) : (posLe a b || posLe b a) = true := by
  simp only [posLe, Bool.or_eq_true, decide_eq_true_eq]
  exact le_total _ _

theorem keeperOf_min (l : List EmailEntry) (hl : l ≠ []) :
    ∃ k, keeperOf l = some k ∧ k ∈ l ∧ ∀ e ∈ l, posTuple k ≤ posTuple e := by
  have hpm := List.mergeSort_perm l posLe
  have hsorted := List.sorted_mergeSort posLe_trans posLe_total l
  rcases hS : l.mergeSort posLe with _ | ⟨k, rest⟩
  · rw [hS] at hpm
    exact absurd (hpm.symm.eq_nil) hl
  · refine ⟨k, ?_, ?_, ?_⟩
    · unfold keeperOf sortGroup
      rw [hS]
      rfl
    · have hm : k ∈ l.mergeSort posLe := by rw [hS]; exact List.mem_cons_self _ _
      exact (List.mergeSort_perm l posLe).mem_iff.mp hm
    · intro e he
      have he' : e ∈ l.mergeSort posLe := (List.mergeSort_perm l posLe).mem_iff.mpr he
      rw [hS] at he'
      rcases List.mem_cons.mp he' with rfl | he'
      · exact le_refl _
      · rw [hS] at hsorted
        have hke := (List.pairwise_cons.mp hsorted).1 e he'
        simpa [posLe, decide_eq_true_eq] using hke

/--
Claim C4: within a duplicate group, the keeper chosen by the duplicate
engine is the record whose (sheet, row, column) tuple is
lexicographically smallest, and the choice is invariant under
permutation of the input order (the group members carry pairwise
distinct position tuples, as extraction produces one entry per cell).
-/
theorem claim_C4 (g gp : List EmailEntry) (hne : g ≠ []) (hperm : g.Perm gp)
    (hkeys : (g.map posTuple).Nodup) :
    ∃ k, keeperOf g = some k ∧ keeperOf gp = some k ∧ k ∈ g ∧
      ∀ e ∈ g, posTuple k ≤ posTuple e := by
  obtain ⟨k, hk1, hk2, hk3⟩ := keeperOf_min g hne
  have hgpne : gp ≠ [] := by
    intro h
    rw [h] at hperm
    exact hne hperm.eq_nil
  obtain ⟨q, hq1, hq2, hq3⟩ := keeperOf_min gp hgpne
  have hqg : q ∈ g := hperm.mem_iff.mpr hq2
  have hkgp : k ∈ gp := hperm.mem_iff.mp hk2
  have heq : posTuple k = posTuple q := le_antisymm (hk3 q hqg) (hq3 k hkgp)
  have hkq : k = q := List.inj_on_of_nodup_map hkeys hk2 hqg heq
  exact ⟨k, hk1, by rw [hkq]; exact hq1, hk2, hk3⟩

/-- Claim C4 witness: a two-entry group listed in both orders has the
same keeper, the row-2 entry, whose tuple is the smallest. -/
theorem claim_C4_witness :
    ([c4e1, c4e2] : List EmailEntry) ≠ [] ∧
    (([c4e1, c4e2] : List EmailEntry).map posTuple).Nodup ∧
    ∃ k, keeperOf [c4e1, c4e2] = some k ∧ keeperOf [c4e2, c4e1] = some k ∧
      k ∈ ([c4e1, c4e2] : List EmailEntry) ∧
      ∀ e ∈ ([c4e1, c4e2] : List EmailEntry), posTuple k ≤ posTuple e :=
  ⟨by simp, by decide,
   claim_C4 [c4e1, c4e2] [c4e2, c4e1] (by simp) (List.Perm.swap c4e2 c4e1 []) (by decide)⟩

/--
Claim C9: when the non-removed rows number more than the 1000-row size
ceiling (1500 does), the near-duplicate stage returns the empty list
without any pairwise comparison, while exact deduplication by canonical
key is still performed on the same input.
-/
theorem claim_C9 (idnaEnc : Str → Option Str) (susp : Char → Bool) (pa : Bool)
    (simRatio : Str → Str → ℚ) (rows : List PRow)
    (h : 1000 < (rows.filter (fun r => r.action ≠ "remove")).length) :
    (deduplicate_records idnaEnc susp pa simRatio rows).near_duplicates = [] ∧
    (deduplicate_records idnaEnc susp pa simRatio rows).duplicates_report =
      exact_dup_report idnaEnc susp pa rows := by
  constructor
  · show _find_near_duplicates simRatio rows = []
    unfold _find_near_duplicates
    rw [if_pos h]
  · rfl

/-- Claim C9 witness: 1001 copies of an accepted row exceed the ceiling;
the near-duplicate list is empty and the exact report is still the
exact-dedup of the same rows. -/
theorem claim_C9_witness :
    (1000 < ((List.replicate 1001 c9row).filter (fun r => r.action ≠ "remove")).length) ∧
    (deduplicate_records stubIdna stubSusp true (fun _ _ => 0)
      (List.replicate 1001 c9row)).near_duplicates = [] ∧
    (deduplicate_records stubIdna stubSusp true (fun _ _ => 0)
      (List.replicate 1001 c9row)).duplicates_report =
      exact_dup_report stubIdna stubSusp true (List.replicate 1001 c9row) := by
  have h : 1000 < ((List.replicate 1001 c9row).filter (fun r => r.action ≠ "remove")).length := by
    rw [List.filter_replicate, if_pos (by decide), List.length_replicate]
    omega
  exact ⟨h, claim_C9 stubIdna stubSusp true (fun _ _ => 0) (List.replicate 1001 c9row) h⟩

/-! Stage-level lemmas about normalize_email_raw. -/

theorem normalize_fst (s : Str) :
    (normalize_email_raw s).1 =
      if atCount (nstage5 s) ≠ 1 then nstage5 s else nOut (nstage5 s) := by
  unfold normalize_email_raw
  split
  · rfl
  · rfl

theorem applySmartQuotes_eq (s : Str) :
    applySmartQuotes s = replaceSub smartPat ['\x22'] s := by
  unfold applySmartQuotes
  rw [replaceSub_self]

theorem mem_stripBoth (p : Char → Bool) (x : Str) (c : Char) (h : c ∈ stripBoth p x) :
    c ∈ x := by
  unfold stripBoth dropWhileRight at h
  have h1 : c ∈ List.dropWhile p (List.dropWhile p x).reverse := List.mem_reverse.mp h
  have h2 : c ∈ (List.dropWhile p x).reverse := (List.dropWhile_sublist p).subset h1
  exact (List.dropWhile_sublist p).subset (List.mem_reverse.mp h2)

theorem mem_nstage2 (s : Str) (c : Char) (h : c ∈ nstage2 s) : c ∈ s ∨ c = '\x22' := by
  unfold nstage2 at h
  rw [applySmartQuotes_eq] at h
  rcases mem_replaceSub _ _ _ _ h with h1 | h1
  · exact Or.inl ((List.filter_sublist _).subset (mem_stripBoth _ _ _ h1))
  · exact Or.inr (by simpa using h1)

theorem mem_nstage3 (s : Str) (c : Char) (h : c ∈ nstage3 s) : c ∈ nstage2 s := by
  unfold nstage3 at h
  split at h
  · exact mem_stripBoth _ _ _ (mem_stripBoth _ _ _ h)
  · exact h

theorem mem_nstage4 (s : Str) (c : Char) (h : c ∈ nstage4 s) :
    c ∈ nstage3 s ∨ c = '@' := by
  unfold nstage4 at h
  split at h
  · rcases List.mem_map.mp h with ⟨d, hd, hdc⟩
    by_cases hdf : d = fwAt
    · rw [if_pos hdf] at hdc
      exact Or.inr hdc.symm
    · rw [if_neg hdf] at hdc
      exact Or.inl (hdc ▸ hd)
  · exact Or.inl h

theorem mem_nstage5 (s : Str) (c : Char) (h : c ∈ nstage5 s) : c ∈ nstage4 s := by
  unfold nstage5 at h
  split at h
  · exact (List.filter_sublist _).subset h
  · exact h

theorem nstage4_noFw (s : Str) (hfw : fwAt ∉ nstage3 s) (c : Char) (h : c ∈ nstage4 s) :
    c ≠ fwAt := by
  unfold nstage4 at h
  split at h
  · rcases List.mem_map.mp h with ⟨d, _, hdc⟩
    by_cases hdf : d = fwAt
    · rw [if_pos hdf] at hdc
      rw [← hdc]
      decide
    · rw [if_neg hdf] at hdc
      exact hdc ▸ hdf
  · exact fun hc => hfw (hc ▸ h)

theorem nstage5_noWS (s : Str) (c : Char) (h : c ∈ nstage5 s) : isPySpace c = false := by
  unfold nstage5 at h
  split at h
  · have h2 := (List.mem_filter.mp h).2
    simpa using h2
  · rename_i hws
    by_contra hcon
    exact hws (List.any_eq_true.mpr ⟨c, h, by simpa using hcon⟩)

/-! Counting the at sign through the normalization stages. -/

theorem count_dropWhile_of_neg (p : Char → Bool) (a : Char) (hpa : p a = false) :
    ∀ s : Str, (s.dropWhile p).count a = s.count a := by
  intro s
  induction s with
  | nil => rfl
  | cons c t ih =>
    rw [List.dropWhile_cons]
    by_cases hc : p c = true
    · rw [if_pos hc, ih]
      have hca : ¬ (c == a) = true := by
        simp only [beq_iff_eq]
        intro h
        rw [h, hpa] at hc
        cases hc
      simp [List.count_cons, hca]
    · rw [if_neg hc]

theorem count_stripBoth_of_neg (p : Char → Bool) (a : Char) (hpa : p a = false) (s : Str) :
    (stripBoth p s).count a = s.count a := by
  unfold stripBoth dropWhileRight
  rw [List.count_reverse, count_dropWhile_of_neg p a hpa, List.count_reverse,
      count_dropWhile_of_neg p a hpa]

theorem count_map_of_eq_iff (f : Char → Char) (a : Char) (hf : ∀ c, f c = a ↔ c = a) :
    ∀ s : Str, (s.map f).count a = s.count a := by
  intro s
  induction s with
  | nil => rfl
  | cons c t ih =>
    rw [List.map_cons]
    by_cases hc : c = a
    · subst hc
      have hfc : f c = c := (hf c).mpr rfl
      simp [List.count_cons, ih, hfc]
    · have hfc : ¬ f c = a := fun h => hc ((hf c).mp h)
      simp [List.count_cons, ih, hc, hfc]

theorem atCount_nstage2 (s : Str) : atCount (nstage2 s) = atCount (pyStrip (s.filter (fun c => !isZW c))) := by
  unfold nstage2 atCount
  rw [applySmartQuotes_eq, count_replaceSub _ _ _ _ (by decide) (by decide)]

theorem atCount_filter_zw (s : Str) :
    atCount (s.filter (fun c => !isZW c)) = atCount s := by
  unfold atCount
  exact List.count_filter (by decide)

theorem atCount_pyStrip (s : Str) : atCount (pyStrip s) = atCount s := by
  unfold pyStrip atCount
  exact count_stripBoth_of_neg _ _ (by decide) s

theorem atCount_nstage2_eq (s : Str) : atCount (nstage2 s) = atCount s := by
  rw [atCount_nstage2, atCount_pyStrip, atCount_filter_zw]

theorem atCount_nstage3 (s : Str) : atCount (nstage3 s) = atCount s := by
  unfold nstage3
  split
  · unfold atCount
    rw [show (pyStrip (stripBoth (fun c => c = '<' || c = '>') (nstage2 s))).count '@' =
        atCount (pyStrip (stripBoth (fun c => c = '<' || c = '>') (nstage2 s))) from rfl,
      atCount_pyStrip]
    unfold atCount
    rw [count_stripBoth_of_neg _ _ (by decide)]
    exact atCount_nstage2_eq s
  · exact atCount_nstage2_eq s

theorem nstage3_noFw (s : Str) (hfw : fwAt ∉ s) : fwAt ∉ nstage3 s := by
  intro h
  rcases mem_nstage2 s fwAt (mem_nstage3 s fwAt h) with h1 | h1
  · exact hfw h1
  · cases h1

theorem nstage4_eq_of_noFw (s : Str) (hfw : fwAt ∉ s) : nstage4 s = nstage3 s := by
  unfold nstage4
  rw [if_neg]
  intro hcon
  exact nstage3_noFw s hfw (by simpa using hcon)

theorem atCount_nstage5_of_noFw (s : Str) (hfw : fwAt ∉ s) :
    atCount (nstage5 s) = atCount s := by
  unfold nstage5
  rw [nstage4_eq_of_noFw s hfw]
  split
  · unfold atCount
    rw [List.count_filter (by decide)]
    exact atCount_nstage3 s
  · exact atCount_nstage3 s

/-! Splitting at the unique at sign. -/

theorem split_at_first (s : Str) (h : '@' ∈ s) :
    s = takeLocal s ++ '@' :: takeDomain s := by
  unfold takeLocal takeDomain
  induction s with
  | nil => cases h
  | cons c t ih =>
    by_cases hc : c = '@'
    · subst hc
      rw [List.takeWhile_cons, List.dropWhile_cons]
      simp
    · have ht : '@' ∈ t := by
        rcases List.mem_cons.mp h with h1 | h1
        · exact absurd h1.symm hc
        · exact h1
      rw [List.takeWhile_cons, List.dropWhile_cons]
      have hcb : (decide ¬ c = '@') = true := by simpa using hc
      simp only [hcb, if_true]
      rw [List.cons_append]
      exact congrArg (c :: ·) (ih ht)

theorem at_notin_takeLocal (s : Str) : '@' ∉ takeLocal s := by
  intro h
  have := List.mem_takeWhile_imp h
  simp at this

theorem atCount_decomp (s : Str) (h : atCount s = 1) :
    '@' ∉ takeLocal s ∧ '@' ∉ takeDomain s ∧ s = takeLocal s ++ '@' :: takeDomain s := by
  have hmem : '@' ∈ s := by
    unfold atCount at h
    exact List.count_pos_iff.mp (by omega)
  have hsplit := split_at_first s hmem
  refine ⟨at_notin_takeLocal s, ?_, hsplit⟩
  intro h2
  unfold atCount at h
  conv at h => rw [hsplit]
  rw [List.count_append] at h
  have hd : 0 < (takeDomain s).count '@' := List.count_pos_iff.mpr h2
  have hc : ('@' :: takeDomain s).count '@' = (takeDomain s).count '@' + 1 := by
    simp [List.count_cons]
  omega

theorem mem_takeDomain (s : Str) (c : Char) (h : c ∈ takeDomain s) : c ∈ s := by
  unfold takeDomain at h
  exact (List.dropWhile_sublist _).subset ((List.tail_sublist _).subset h)

theorem mem_takeLocal (s : Str) (c : Char) (h : c ∈ takeLocal s) : c ∈ s := by
  unfold takeLocal at h
  exact (List.takeWhile_prefix _).sublist.subset h

theorem mem_rstripDot (s : Str) (c : Char) (h : c ∈ rstripDot s) : c ∈ s := by
  unfold rstripDot dropWhileRight at h
  exact List.mem_reverse.mp ((List.dropWhile_sublist _).subset (List.mem_reverse.mp h))

theorem mem_ndomainOut (s5 : Str) (c : Char) (h : c ∈ ndomainOut s5) :
    ∃ d, d ∈ takeDomain s5 ∧ pyLower d = c := by
  unfold ndomainOut at h
  rcases List.mem_map.mp h with ⟨d, hd, hdc⟩
  refine ⟨d, ?_, hdc⟩
  unfold ndom2 at hd
  split at hd
  · exact mem_rstripDot _ d (mem_collapseDotsGo _ false d hd)
  · exact mem_rstripDot _ d hd

theorem atCount_nOut (s5 : Str) (h : atCount s5 = 1) : atCount (nOut s5) = 1 := by
  obtain ⟨h1, h2, _⟩ := atCount_decomp s5 h
  unfold nOut atCount
  rw [List.count_append]
  have hl : (takeLocal s5).count '@' = 0 := List.count_eq_zero.mpr h1
  have hd : (ndomainOut s5).count '@' = 0 := by
    rw [List.count_eq_zero]
    intro hmem
    obtain ⟨d, hd1, hd2⟩ := mem_ndomainOut s5 '@' hmem
    have hde : d = '@' := (pyLower_eq_iff '@' (by decide) d).mp hd2
    exact h2 (hde ▸ hd1)
  simp [List.count_cons, hl, hd]

theorem atCount_normalize (s : Str) (hfw : fwAt ∉ s) :
    atCount (normalize_email_raw s).1 = atCount s := by
  rw [normalize_fst]
  split
  · exact atCount_nstage5_of_noFw s hfw
  · rename_i h
    have h5 : atCount (nstage5 s) = 1 := not_ne_iff.mp h
    rw [atCount_nOut _ h5, ← atCount_nstage5_of_noFw s hfw, h5]

theorem nstage4_noFw_all (s : Str) (c : Char) (h : c ∈ nstage4 s) : c ≠ fwAt := by
  unfold nstage4 at h
  split at h
  · rcases List.mem_map.mp h with ⟨d, _, hdc⟩
    by_cases hdf : d = fwAt
    · rw [if_pos hdf] at hdc
      rw [← hdc]
      decide
    · rw [if_neg hdf] at hdc
      exact hdc ▸ hdf
  · rename_i hc
    intro hcf
    exact hc (by rw [hcf] at h; simpa using h)

theorem normalize_noFw (s : Str) (c : Char) (h : c ∈ (normalize_email_raw s).1) :
    c ≠ fwAt := by
  rw [normalize_fst] at h
  split at h
  · exact nstage4_noFw_all s c (mem_nstage5 s c h)
  · unfold nOut at h
    rcases List.mem_append.mp h with h1 | h1
    · exact nstage4_noFw_all s c (mem_nstage5 s c (mem_takeLocal _ c h1))
    · rcases List.mem_cons.mp h1 with rfl | h2
      · decide
      · obtain ⟨d, hd1, hd2⟩ := mem_ndomainOut _ c h2
        intro hcf
        have hdf : d = fwAt := by
          rw [hcf] at hd2
          exact (pyLower_eq_iff fwAt (by decide) d).mp hd2
        exact nstage4_noFw_all s d (mem_nstage5 s d (mem_takeDomain _ d hd1)) hdf

theorem canonical_key_isSome (idnaEnc : Str → Option Str) (susp : Char → Bool)
    (e : Str) (pa : Bool) (h1 : atCount e = 1) (hfw : fwAt ∉ e) :
    canonical_key idnaEnc susp e pa =
      some (canonicalLocal idnaEnc susp e pa ++ '@' :: canonicalDomain idnaEnc susp e) := by
  unfold canonical_key
  rw [if_neg]
  rw [atCount_normalize e hfw, h1]
  exact not_ne_iff.mpr rfl

theorem atCount_join (l x : Str) (hl : '@' ∉ l) (hx : '@' ∉ x) :
    atCount (l ++ '@' :: x) = 1 := by
  unfold atCount
  rw [List.count_append]
  simp [List.count_cons, List.count_eq_zero.mpr hl, List.count_eq_zero.mpr hx]

theorem noFw_join (l x : Str) (hl : fwAt ∉ l) (hx : fwAt ∉ x) :
    fwAt ∉ (l ++ '@' :: x) := by
  intro h
  rcases List.mem_append.mp h with h1 | h1
  · exact hl h1
  · rcases List.mem_cons.mp h1 with h2 | h2
    · exact absurd h2 (by decide)
    · exact hx h2

theorem suggest_tld_fix_good (d t : Str) (h : suggest_tld_fix d = some t)
    (hd1 : '@' ∉ d) (hd2 : fwAt ∉ d) : '@' ∉ t ∧ fwAt ∉ t := by
  unfold suggest_tld_fix at h
  obtain ⟨bg, hbg, hfg⟩ := List.exists_of_findSome?_eq_some h
  split at hfg
  · have ht : t = d.take (d.length - bg.1.length) ++ bg.2 := (Option.some.inj hfg).symm
    have hval : ∀ p ∈ DEFAULT_TLD_FIX, '@' ∉ p.2 ∧ fwAt ∉ p.2 := by decide
    constructor
    · intro hm
      rw [ht] at hm
      rcases List.mem_append.mp hm with h1 | h1
      · exact hd1 ((List.take_sublist _ _).subset h1)
      · exact (hval bg hbg).1 h1
    · intro hm
      rw [ht] at hm
      rcases List.mem_append.mp hm with h1 | h1
      · exact hd2 ((List.take_sublist _ _).subset h1)
      · exact (hval bg hbg).2 h1
  · cases hfg

theorem suggest_exact_domain_fix_good (d e : Str)
    (h : suggest_exact_domain_fix d = some e) : '@' ∉ e ∧ fwAt ∉ e := by
  unfold suggest_exact_domain_fix at h
  obtain ⟨kv, hkv, hkv2⟩ := Option.map_eq_some'.mp h
  have hmem : kv ∈ DEFAULT_DOMAIN_FIX := List.mem_of_find?_eq_some hkv
  have hval : ∀ p ∈ DEFAULT_DOMAIN_FIX, '@' ∉ p.2 ∧ fwAt ∉ p.2 := by decide
  exact hkv2 ▸ hval kv hmem

theorem suggest_fuzzy_good (fz : Str → List Str → Option Str) (d : Str)
    (tops : List Str) (c : Str) (h : suggest_fuzzy_domain_fix fz d tops = some c)
    (hFz : ∀ dd ts cc, fz dd ts = some cc → cc ∈ ts)
    (hTops : ∀ t ∈ tops, '@' ∉ t ∧ fwAt ∉ t) : '@' ∉ c ∧ fwAt ∉ c := by
  unfold suggest_fuzzy_domain_fix at h
  split at h
  · cases h
  · rcases hf : fz d tops with _ | cand
    · rw [hf] at h; cases h
    · rw [hf] at h
      dsimp only at h
      split at h
      · exact (Option.some.inj h) ▸ hTops cand (hFz d tops cand hf)
      · cases h

theorem collapse_local_double_dot_sub (lp lf : Str)
    (h : collapse_local_double_dot lp = some lf) (c : Char) (hc : c ∈ lf) : c ∈ lp := by
  unfold collapse_local_double_dot at h
  split at h
  · have he : collapseDots lp = lf := Option.some.inj h
    rw [← he] at hc
    exact mem_collapseDotsGo lp false c hc
  · cases h

theorem domainLevelFix_good (lp d : Str) (q : Str × String)
    (h : domainLevelFix lp d = some q)
    (hlp : '@' ∉ lp ∧ fwAt ∉ lp) (hd : '@' ∉ d ∧ fwAt ∉ d) :
    atCount q.1 = 1 ∧ fwAt ∉ q.1 := by
  unfold domainLevelFix at h
  rcases he : suggest_exact_domain_fix d with _ | e
  · rw [he] at h
    rcases ht : suggest_tld_fix d with _ | t
    · rw [ht] at h; cases h
    · rw [ht] at h
      have hq : q = (lp ++ '@' :: t, "exact") := (Option.some.inj h).symm
      have hgood := suggest_tld_fix_good d t ht hd.1 hd.2
      rw [hq]
      exact ⟨atCount_join lp t hlp.1 hgood.1, noFw_join lp t hlp.2 hgood.2⟩
  · rw [he] at h
    have hq : q = (lp ++ '@' :: e, "exact") := (Option.some.inj h).symm
    have hgood := suggest_exact_domain_fix_good d e he
    rw [hq]
    exact ⟨atCount_join lp e hlp.1 hgood.1, noFw_join lp e hlp.2 hgood.2⟩

theorem preFuzzySuggestion_good (lp d : Str) (risks : List String) (q : Str × String)
    (h : preFuzzySuggestion lp d risks = some q)
    (hlp : '@' ∉ lp ∧ fwAt ∉ lp) (hd : '@' ∉ d ∧ fwAt ∉ d) :
    atCount q.1 = 1 ∧ fwAt ∉ q.1 := by
  unfold preFuzzySuggestion at h
  by_cases h1 : (domainLevelFix lp d).isNone = true ∧ risks.contains "double_dot_local" = true
  · rw [if_pos h1] at h
    rcases hc : collapse_local_double_dot lp with _ | lf
    · rw [hc] at h
      exact domainLevelFix_good lp d q h hlp hd
    · rw [hc] at h
      dsimp only at h
      by_cases h2 : ¬ lf.isEmpty = true ∧ lf.head? ≠ some '.' ∧ lf.getLast? ≠ some '.'
      · rw [if_pos h2] at h
        have hq : q = (lf ++ '@' :: d, "local_collapse") := (Option.some.inj h).symm
        have hlf1 : '@' ∉ lf := fun hm => hlp.1 (collapse_local_double_dot_sub lp lf hc _ hm)
        have hlf2 : fwAt ∉ lf := fun hm => hlp.2 (collapse_local_double_dot_sub lp lf hc _ hm)
        rw [hq]
        exact ⟨atCount_join lf d hlf1 hd.1, noFw_join lf d hlf2 hd.2⟩
      · rw [if_neg h2] at h
        exact domainLevelFix_good lp d q h hlp hd
  · rw [if_neg h1] at h
    exact domainLevelFix_good lp d q h hlp hd

theorem selectSuggestion_good (fz : Str → List Str → Option Str) (tops : List Str)
    (lp d : Str) (risks : List String) (p : Str × String)
    (h : selectSuggestion fz tops lp d risks = some p)
    (hlp : '@' ∉ lp ∧ fwAt ∉ lp) (hd : '@' ∉ d ∧ fwAt ∉ d)
    (hFz : ∀ dd ts cc, fz dd ts = some cc → cc ∈ ts)
    (hTops : ∀ t ∈ tops, '@' ∉ t ∧ fwAt ∉ t) :
    atCount p.1 = 1 ∧ fwAt ∉ p.1 := by
  rcases hp : preFuzzySuggestion lp d risks with _ | q
  · unfold selectSuggestion at h
    rw [hp] at h
    split at h
    · rcases hf : suggest_fuzzy_domain_fix fz d tops with _ | c
      · rw [hf] at h; cases h
      · rw [hf] at h
        have hq : p = (lp ++ '@' :: c, "fuzzy_domain") := (Option.some.inj h).symm
        have hgood := suggest_fuzzy_good fz d tops c hf hFz hTops
        rw [hq]
        exact ⟨atCount_join lp c hlp.1 hgood.1, noFw_join lp c hlp.2 hgood.2⟩
    · cases h
  · have hs := selectSuggestion_of_pre fz tops lp d risks q hp
    rw [hs] at h
    obtain rfl : q = p := Option.some.inj h
    exact preFuzzySuggestion_good lp d risks q hp hlp hd

theorem idna_ascii_fst_good (idnaEnc : Str → Option Str) (susp : Char → Bool) (dom : Str)
    (hIdna : ∀ d a, idnaEnc d = some a → '@' ∉ a ∧ fwAt ∉ a)
    (hdAt : '@' ∉ dom) (hdFw : fwAt ∉ dom) :
    '@' ∉ (idna_ascii idnaEnc susp dom).1 ∧ fwAt ∉ (idna_ascii idnaEnc susp dom).1 := by
  unfold idna_ascii
  split
  · exact ⟨hdAt, hdFw⟩
  · split
    · exact ⟨hdAt, hdFw⟩
    · rcases hi : idnaEnc dom with _ | a
      · exact ⟨hdAt, hdFw⟩
      · exact hIdna dom a hi

theorem mainFinalEmail_good (lp da : Str)
    (hlp : '@' ∉ lp ∧ fwAt ∉ lp) (hda : '@' ∉ da ∧ fwAt ∉ da) :
    atCount (mainFinalEmail lp da) = 1 ∧ fwAt ∉ mainFinalEmail lp da := by
  unfold mainFinalEmail
  split
  · constructor
    · show ((lp ++ '@' :: da).map pyLower).count '@' = 1
      rw [count_map_of_eq_iff pyLower '@' (pyLower_eq_iff '@' (by decide))]
      exact atCount_join lp da hlp.1 hda.1
    · intro hm
      rcases List.mem_map.mp hm with ⟨d, hd1, hd2⟩
      have hde : d = fwAt := (pyLower_eq_iff fwAt (by decide) d).mp hd2
      exact noFw_join lp da hlp.2 hda.2 (hde ▸ hd1)
  · exact ⟨atCount_join lp da hlp.1 hda.1, noFw_join lp da hlp.2 hda.2⟩

/--
Claim C2: the canonical key of a validation result is present exactly
when the action is not suppress. Both the early branch (wrong at-sign
count: suppression and a missing key) and the main branch (the key is
set to None exactly on the suppress action, and is otherwise computable
because the keyed email — the suggestion or the final normalized email —
has exactly one at-sign) satisfy the equivalence, for any idna encoder
whose outputs contain no at-sign and any fuzzy matcher that picks from
the given top-domain list.
-/
theorem claim_C2 (idnaEnc : Str → Option Str) (susp : Char → Bool)
    (fz : Str → List Str → Option Str) (email : Str) (er : Bool)
    (dset : List Str) (roles : Option (List Str)) (tops : List Str)
    (tlds : Option (List Str))
    (hIdna : ∀ d a, idnaEnc d = some a → '@' ∉ a ∧ fwAt ∉ a)
    (hFz : ∀ dd ts cc, fz dd ts = some cc → cc ∈ ts)
    (hTops : ∀ t ∈ tops, '@' ∉ t ∧ fwAt ∉ t) :
    ((validate_email_deterministic idnaEnc susp fz email er dset roles tops
        tlds).canonical_key ≠ none ↔
     (validate_email_deterministic idnaEnc susp fz email er dset roles tops
        tlds).action ≠ "suppress") := by
  unfold validate_email_deterministic
  split
  · simp [validate_early]
  · rename_i hcond
    have hN : atCount (normalize_email_raw email).1 = 1 := not_ne_iff.mp hcond
    obtain ⟨hlpAt, hdomAt, _⟩ := atCount_decomp _ hN
    have hNfw : fwAt ∉ (normalize_email_raw email).1 :=
      fun hm => normalize_noFw email fwAt hm rfl
    have hlpFw : fwAt ∉ takeLocal (normalize_email_raw email).1 :=
      fun hm => hNfw (mem_takeLocal _ _ hm)
    have hdomFw : fwAt ∉ takeDomain (normalize_email_raw email).1 :=
      fun hm => hNfw (mem_takeDomain _ _ hm)
    have hda := idna_ascii_fst_good idnaEnc susp
      (takeDomain (normalize_email_raw email).1) hIdna hdomAt hdomFw
    simp only [validate_main]
    by_cases hA : (actionNotesConf er
        (mainRisks idnaEnc susp dset roles tlds (normalize_email_raw email).1)
        (mainSfix idnaEnc susp fz dset roles tops tlds (normalize_email_raw email).1)).1
        = "suppress"
    · rw [if_pos hA, hA]
      simp
    · rw [if_neg hA]
      rcases hS : mainSfix idnaEnc susp fz dset roles tops tlds
          (normalize_email_raw email).1 with _ | p
      · rw [hS] at hA
        simp only [Option.map_none', Option.getD_none]
        have hK := mainFinalEmail_good (takeLocal (normalize_email_raw email).1)
          (mainDomainAscii idnaEnc susp (normalize_email_raw email).1) ⟨hlpAt, hlpFw⟩ hda
        rw [canonical_key_isSome idnaEnc susp _ true hK.1 hK.2]
        simp [hA]
      · rw [hS] at hA
        simp only [Option.map_some', Option.getD_some]
        have hK := selectSuggestion_good fz tops (takeLocal (normalize_email_raw email).1)
          (mainDomainAscii idnaEnc susp (normalize_email_raw email).1)
          (mainRisks idnaEnc susp dset roles tlds (normalize_email_raw email).1) p
          hS ⟨hlpAt, hlpFw⟩ hda hFz hTops
        rw [canonical_key_isSome idnaEnc susp _ true hK.1 hK.2]
        simp [hA]

/-- Claim C2 witness: with the stub reference functions on a@b.com, the
canonical key is present and the action is not suppress. -/
theorem claim_C2_witness :
    ((validate_email_deterministic stubIdna stubSusp stubFuzzy ("a@b.com".toList)
        false [] none [] none).canonical_key ≠ none ↔
     (validate_email_deterministic stubIdna stubSusp stubFuzzy ("a@b.com".toList)
        false [] none [] none).action ≠ "suppress") :=
  claim_C2 stubIdna stubSusp stubFuzzy ("a@b.com".toList) false [] none [] none
    (fun d a h => by simp [stubIdna] at h)
    (fun dd ts cc h => by simp [stubFuzzy] at h)
    (fun t ht => by simp at ht)

theorem nstage2_noZW (s : Str) (c : Char) (h : c ∈ nstage2 s) : isZW c = false := by
  unfold nstage2 at h
  rw [applySmartQuotes_eq] at h
  rcases mem_replaceSub _ _ _ _ h with h1 | h1
  · have h2 := mem_stripBoth _ _ _ h1
    have h3 := (List.mem_filter.mp h2).2
    simpa using h3
  · have hc : c = '\x22' := by simpa using h1
    rw [hc]
    decide

theorem nstage5_noZW (s : Str) (c : Char) (h : c ∈ nstage5 s) : isZW c = false := by
  rcases mem_nstage4 s c (mem_nstage5 s c h) with h1 | h1
  · exact nstage2_noZW s c (mem_nstage3 s c h1)
  · rw [h1]
    decide

theorem normalize_noZW (s : Str) (c : Char) (h : c ∈ (normalize_email_raw s).1) :
    isZW c = false := by
  rw [normalize_fst] at h
  split at h
  · exact nstage5_noZW s c h
  · unfold nOut at h
    rcases List.mem_append.mp h with h1 | h1
    · exact nstage5_noZW s c (mem_takeLocal _ c h1)
    · rcases List.mem_cons.mp h1 with rfl | h2
      · decide
      · obtain ⟨d, hd1, hd2⟩ := mem_ndomainOut _ c h2
        rw [← hd2, isZW_pyLower]
        exact nstage5_noZW s d (mem_takeDomain _ d hd1)

theorem normalize_noWS (s : Str) (c : Char) (h : c ∈ (normalize_email_raw s).1) :
    isPySpace c = false := by
  rw [normalize_fst] at h
  split at h
  · exact nstage5_noWS s c h
  · unfold nOut at h
    rcases List.mem_append.mp h with h1 | h1
    · exact nstage5_noWS s c (mem_takeLocal _ c h1)
    · rcases List.mem_cons.mp h1 with rfl | h2
      · decide
      · obtain ⟨d, hd1, hd2⟩ := mem_ndomainOut _ c h2
        rw [← hd2, isPySpace_pyLower]
        exact nstage5_noWS s d (mem_takeDomain _ d hd1)

theorem normalize_notMem_low (s : Str) (a : Char) (ha : a.toNat < 65)
    (ha2 : a ≠ '@') (ha3 : a ≠ '\x22') (hs : a ∉ s) :
    a ∉ (normalize_email_raw s).1 := by
  have hbase : ∀ c ∈ nstage5 s, c ≠ a := by
    intro c hc hca
    rcases mem_nstage4 s c (mem_nstage5 s c hc) with h1 | h1
    · rcases mem_nstage2 s c (mem_nstage3 s c h1) with h2 | h2
      · exact hs (hca ▸ h2)
      · exact ha3 (hca ▸ h2)
    · exact ha2 (hca ▸ h1)
  intro h
  rw [normalize_fst] at h
  split at h
  · exact hbase a h rfl
  · unfold nOut at h
    rcases List.mem_append.mp h with h1 | h1
    · exact hbase a (mem_takeLocal _ a h1) rfl
    · rcases List.mem_cons.mp h1 with h2 | h2
      · exact ha2 h2
      · obtain ⟨d, hd1, hd2⟩ := mem_ndomainOut _ a h2
        have hda : d = a := (pyLower_eq_iff a (Or.inl ha) d).mp hd2
        exact hbase d (mem_takeDomain _ d hd1) hda

theorem nstage5_eq_self (t : Str)
    (hws : ∀ c ∈ t, isPySpace c = false)
    (hzw : ∀ c ∈ t, isZW c = false)
    (hlt : '<' ∉ t) (hgt : '>' ∉ t) (hfw : fwAt ∉ t) :
    nstage5 t = t := by
  have h2 : nstage2 t = t := by
    unfold nstage2 pyStrip
    rw [List.filter_eq_self.mpr (fun c hc => by simp [hzw c hc]),
        stripBoth_eq_self_of_all isPySpace t hws]
    unfold applySmartQuotes
    rw [replaceSub_of_notMem smartPat ['\x22'] ' ' (by decide) t
          (fun hm => absurd (hws ' ' hm) (by decide)),
        replaceSub_self]
  have h3 : nstage3 t = t := by
    unfold nstage3
    rw [h2, if_neg (by simp [hlt, hgt])]
  have h4 : nstage4 t = t := by
    unfold nstage4
    rw [h3, if_neg (by simp [hfw])]
  unfold nstage5
  rw [h4]
  have hna : ¬ (t.any isPySpace = true) := by
    rw [List.any_eq_true]
    rintro ⟨c, hc, hpc⟩
    rw [hws c hc] at hpc
    cases hpc
  rw [if_neg hna]

theorem takeLocal_join (l x : Str) (hl : '@' ∉ l) : takeLocal (l ++ '@' :: x) = l := by
  unfold takeLocal
  induction l with
  | nil => rw [List.nil_append, List.takeWhile_cons, if_neg (by decide)]
  | cons c t ih =>
    have hc : c ≠ '@' := fun h => hl (h ▸ List.mem_cons_self c t)
    rw [List.cons_append, List.takeWhile_cons, if_pos (decide_eq_true hc),
        ih (fun hm => hl (List.mem_cons_of_mem c hm))]

theorem takeDomain_join (l x : Str) (hl : '@' ∉ l) : takeDomain (l ++ '@' :: x) = x := by
  unfold takeDomain
  induction l with
  | nil =>
    rw [List.nil_append, List.dropWhile_cons, if_neg (by decide)]
    rfl
  | cons c t ih =>
    have hc : c ≠ '@' := fun h => hl (h ▸ List.mem_cons_self c t)
    rw [List.cons_append, List.dropWhile_cons, if_pos (decide_eq_true hc)]
    exact ih (fun hm => hl (List.mem_cons_of_mem c hm))

theorem dropWhile_head_not (p : Char → Bool) (l : Str) :
    ∀ c, (l.dropWhile p).head? = some c → p c = false := by
  rcases hd : l.dropWhile p with _ | ⟨d, t⟩
  · intro c hc
    cases hc
  · intro c hc
    rw [List.head?_cons] at hc
    rw [← Option.some.inj hc]
    exact dropWhile_head_false p l d t hd

theorem rstripDot_getLast (u : Str) : (rstripDot u).getLast? ≠ some '.' := by
  unfold rstripDot dropWhileRight
  rw [List.getLast?_reverse]
  intro hcon
  have hpc := dropWhile_head_not _ u.reverse '.' hcon
  simp at hpc

theorem rstripDot_eq_self (u : Str) (h : u.getLast? ≠ some '.') : rstripDot u = u := by
  unfold rstripDot dropWhileRight
  rcases hu : u.reverse with _ | ⟨c, t⟩
  · have hu2 : u = [] := by simpa using congrArg List.reverse hu
    rw [hu2]
    rfl
  · have hgl : u.getLast? = some c := by rw [← List.head?_reverse, hu]; rfl
    have hc : c ≠ '.' := fun hcd => h (by rw [hgl, hcd])
    rw [List.dropWhile_cons, if_neg (by simpa using hc), ← hu, List.reverse_reverse]

theorem map_pyLower_getLast (u : Str) (h : u.getLast? ≠ some '.') :
    (u.map pyLower).getLast? ≠ some '.' := by
  intro hcon
  rw [List.getLast?_map] at hcon
  rcases hx : u.getLast? with _ | c
  · rw [hx] at hcon
    cases hcon
  · rw [hx] at hcon
    have hpc : pyLower c = '.' := by simpa using hcon
    have hc : c = '.' := (pyLower_eq_iff '.' (by decide) c).mp hpc
    exact h (by rw [hx, hc])

theorem containsSub_dd_map (u : Str) :
    containsSub ['.', '.'] (u.map pyLower) = containsSub ['.', '.'] u := by
  induction u with
  | nil => rfl
  | cons c t ih =>
    rw [List.map_cons]
    have hhead : (t.map pyLower).head? = some '.' ↔ t.head? = some '.' := by
      cases t with
      | nil => simp
      | cons e v =>
        simp only [List.map_cons, List.head?_cons, Option.some.injEq]
        exact pyLower_eq_iff '.' (by decide) e
    have hc : pyLower c = '.' ↔ c = '.' := pyLower_eq_iff '.' (by decide) c
    rw [Bool.eq_iff_iff, containsSub_dd_cons, containsSub_dd_cons, ih, hc, hhead]

theorem map_pyLower_idem (u : Str) : (u.map pyLower).map pyLower = u.map pyLower := by
  rw [List.map_map]
  exact List.map_congr_left (fun c _ => pyLower_idem c)

/-- Claim C3 counterexample: normalization is not idempotent. On the
input a@b>. the angle-bracket strip does not fire on the trailing
bracket (the dot shields it), the domain step then removes the trailing
dot, and the second pass strips the now-exposed bracket: one pass gives
a@b> and a second pass shortens it further to a@b. -/
theorem claim_C3_counterexample :
    (normalize_email_raw (normalize_email_raw ("a@b>.".toList)).1).1 ≠
      (normalize_email_raw ("a@b>.".toList)).1 := by decide

/--
Claim C3 (amended): on every input free of angle brackets the normalizer
is idempotent in its normalized-email component. The first pass leaves a
string with no whitespace, no zero-width characters, no fullwidth at
sign and no angle brackets, on which the character-level stages are the
identity; the domain steps are the identity as well because the first
pass already removed trailing dots, collapsed double dots and lowercased
the domain.
-/
theorem claim_C3_amended (s : Str) (hlt : '<' ∉ s) (hgt : '>' ∉ s) :
    (normalize_email_raw (normalize_email_raw s).1).1 = (normalize_email_raw s).1 := by
  have hws : ∀ c ∈ (normalize_email_raw s).1, isPySpace c = false :=
    fun c hc => normalize_noWS s c hc
  have hzw : ∀ c ∈ (normalize_email_raw s).1, isZW c = false :=
    fun c hc => normalize_noZW s c hc
  have hltT : '<' ∉ (normalize_email_raw s).1 :=
    normalize_notMem_low s '<' (by decide) (by decide) (by decide) hlt
  have hgtT : '>' ∉ (normalize_email_raw s).1 :=
    normalize_notMem_low s '>' (by decide) (by decide) (by decide) hgt
  have hfwT : fwAt ∉ (normalize_email_raw s).1 := fun hm => normalize_noFw s fwAt hm rfl
  have h5 : nstage5 (normalize_email_raw s).1 = (normalize_email_raw s).1 :=
    nstage5_eq_self _ hws hzw hltT hgtT hfwT
  have ht := normalize_fst s
  by_cases h1 : atCount (nstage5 s) ≠ 1
  · rw [if_pos h1] at ht
    rw [normalize_fst ((normalize_email_raw s).1), h5, ht, if_pos h1]
  · rw [if_neg h1] at ht
    have hs5 : atCount (nstage5 s) = 1 := not_ne_iff.mp h1
    obtain ⟨hlpAt, _, _⟩ := atCount_decomp _ hs5
    have hatT : atCount (normalize_email_raw s).1 = 1 := by
      rw [ht]
      exact atCount_nOut _ hs5
    rw [normalize_fst ((normalize_email_raw s).1), h5, if_neg (not_ne_iff.mpr hatT), ht]
    have hTL : takeLocal (nOut (nstage5 s)) = takeLocal (nstage5 s) := by
      unfold nOut
      exact takeLocal_join _ _ hlpAt
    have hTD : takeDomain (nOut (nstage5 s)) = ndomainOut (nstage5 s) := by
      unfold nOut
      exact takeDomain_join _ _ hlpAt
    have hgl2 : (ndom2 (nstage5 s)).getLast? ≠ some '.' := by
      unfold ndom2
      split
      · exact collapseDotsGo_getLast _ (rstripDot_getLast _) false
      · exact rstripDot_getLast _
    have hglD : (ndomainOut (nstage5 s)).getLast? ≠ some '.' :=
      map_pyLower_getLast _ hgl2
    have hdd2 : containsSub ['.', '.'] (ndom2 (nstage5 s)) = false := by
      unfold ndom2
      split
      · exact collapseDotsGo_ddFree _ false
      · rename_i hcon
        exact Bool.eq_false_iff.mpr hcon
    have hddD : containsSub ['.', '.'] (ndomainOut (nstage5 s)) = false := by
      show containsSub ['.', '.'] ((ndom2 (nstage5 s)).map pyLower) = false
      rw [containsSub_dd_map]
      exact hdd2
    have hnd1 : ndom1 (nOut (nstage5 s)) = ndomainOut (nstage5 s) := by
      unfold ndom1
      rw [hTD]
      exact rstripDot_eq_self _ hglD
    have hnd2 : ndom2 (nOut (nstage5 s)) = ndomainOut (nstage5 s) := by
      unfold ndom2
      rw [hnd1, hddD, if_neg Bool.false_ne_true]
    have hout : ndomainOut (nOut (nstage5 s)) = ndomainOut (nstage5 s) := by
      show (ndom2 (nOut (nstage5 s))).map pyLower = ndomainOut (nstage5 s)
      rw [hnd2]
      exact map_pyLower_idem (ndom2 (nstage5 s))
    show takeLocal (nOut (nstage5 s)) ++ '@' :: ndomainOut (nOut (nstage5 s)) = nOut (nstage5 s)
    rw [hTL, hout]
    rfl

/-- Claim C3 amended witness: a bracket-free input that exercises the
whitespace strip, the double-dot collapse, the trailing-dot strip and
the lowercasing is normalized idempotently. -/
theorem claim_C3_amended_witness :
    '<' ∉ ("  User@Ex..ample..COM.  ".toList) ∧
    '>' ∉ ("  User@Ex..ample..COM.  ".toList) ∧
    (normalize_email_raw (normalize_email_raw ("  User@Ex..ample..COM.  ".toList)).1).1 =
      (normalize_email_raw ("  User@Ex..ample..COM.  ".toList)).1 :=
  ⟨by decide, by decide,
   claim_C3_amended ("  User@Ex..ample..COM.  ".toList) (by decide) (by decide)⟩

theorem plainChar_facts (c : Char)
    (hn : (97 ≤ c.toNat ∧ c.toNat ≤ 122) ∨ (48 ≤ c.toNat ∧ c.toNat ≤ 57) ∨
          c.toNat = 46 ∨ c.toNat = 45) :
    isPySpace c = false ∧ isZW c = false ∧ c ≠ '<' ∧ c ≠ '>' ∧ c ≠ fwAt ∧
    c ≠ '@' ∧ pyLower c = c := by
  refine ⟨?_, ?_, ?_, ?_, ?_, ?_, ?_⟩
  · simp only [isPySpace]
    rw [decide_eq_false_iff_not]
    omega
  · simp only [isZW]
    rw [decide_eq_false_iff_not]
    omega
  · intro h
    rw [h] at hn
    revert hn
    decide
  · intro h
    rw [h] at hn
    revert hn
    decide
  · intro h
    rw [h] at hn
    revert hn
    decide
  · intro h
    rw [h] at hn
    revert hn
    decide
  · exact pyLower_fix c (by omega)

theorem normalize_plain (lp d : Str)
    (hlpAt : '@' ∉ lp)
    (hlpNice : ∀ c ∈ lp, isPySpace c = false ∧ isZW c = false ∧ c ≠ '<' ∧ c ≠ '>' ∧ c ≠ fwAt)
    (hdNice : ∀ c ∈ d, isPySpace c = false ∧ isZW c = false ∧ c ≠ '<' ∧ c ≠ '>' ∧ c ≠ fwAt ∧
        c ≠ '@' ∧ pyLower c = c)
    (hdLast : d.getLast? ≠ some '.')
    (hdd : containsSub ['.', '.'] d = false) :
    (normalize_email_raw (lp ++ '@' :: d)).1 = lp ++ '@' :: d := by
  have hmem : ∀ c ∈ lp ++ '@' :: d,
      isPySpace c = false ∧ isZW c = false ∧ c ≠ '<' ∧ c ≠ '>' ∧ c ≠ fwAt := by
    intro c hc
    rcases List.mem_append.mp hc with h1 | h1
    · exact hlpNice c h1
    · rcases List.mem_cons.mp h1 with rfl | h2
      · exact ⟨by decide, by decide, by decide, by decide, by decide⟩
      · exact ⟨(hdNice c h2).1, (hdNice c h2).2.1, (hdNice c h2).2.2.1,
               (hdNice c h2).2.2.2.1, (hdNice c h2).2.2.2.2.1⟩
  have hdAt : '@' ∉ d := fun hm => (hdNice '@' hm).2.2.2.2.2.1 rfl
  have h5 : nstage5 (lp ++ '@' :: d) = lp ++ '@' :: d :=
    nstage5_eq_self _ (fun c hc => (hmem c hc).1) (fun c hc => (hmem c hc).2.1)
      (fun hm => (hmem _ hm).2.2.1 rfl) (fun hm => (hmem _ hm).2.2.2.1 rfl)
      (fun hm => (hmem _ hm).2.2.2.2 rfl)
  rw [normalize_fst, h5]
  have hat : atCount (lp ++ '@' :: d) = 1 := atCount_join lp d hlpAt hdAt
  rw [if_neg (not_ne_iff.mpr hat)]
  have hTL := takeLocal_join lp d hlpAt
  have hTD := takeDomain_join lp d hlpAt
  have hnd1 : ndom1 (lp ++ '@' :: d) = d := by
    unfold ndom1
    rw [hTD]
    exact rstripDot_eq_self d hdLast
  have hnd2 : ndom2 (lp ++ '@' :: d) = d := by
    unfold ndom2
    rw [hnd1, hdd, if_neg Bool.false_ne_true]
  have hout : ndomainOut (lp ++ '@' :: d) = d := by
    show (ndom2 (lp ++ '@' :: d)).map pyLower = d
    rw [hnd2]
    exact (List.map_congr_left
      (fun c hc => (hdNice c hc).2.2.2.2.2.2)).trans (List.map_id d)
  show takeLocal (lp ++ '@' :: d) ++ '@' :: ndomainOut (lp ++ '@' :: d) = lp ++ '@' :: d
  rw [hTL, hout]

theorem canonicalDomain_plain (idnaEnc : Str → Option Str) (susp : Char → Bool)
    (lp d : Str)
    (hnmz : (normalize_email_raw (lp ++ '@' :: d)).1 = lp ++ '@' :: d)
    (hlpAt : '@' ∉ lp) (hascii : _is_ascii d = true)
    (hdLow : ∀ c ∈ d, pyLower c = c) :
    canonicalDomain idnaEnc susp (lp ++ '@' :: d) = d := by
  unfold canonicalDomain
  rw [hnmz, takeDomain_join lp d hlpAt]
  have hid : idna_ascii idnaEnc susp d = (d, []) := by
    unfold idna_ascii
    by_cases hemp : d.isEmpty = true
    · rw [if_pos hemp]
    · rw [if_neg hemp, if_pos hascii]
  rw [hid]
  exact (List.map_congr_left (fun c hc => hdLow c hc)).trans (List.map_id d)

theorem canonicalLocal_plain (idnaEnc : Str → Option Str) (susp : Char → Bool)
    (lp d : Str)
    (hnmz : (normalize_email_raw (lp ++ '@' :: d)).1 = lp ++ '@' :: d)
    (hlpAt : '@' ∉ lp)
    (hcdp : canonicalDomain idnaEnc susp (lp ++ '@' :: d) = d)
    (hng : d ∉ GMAIL_LIKE) :
    canonicalLocal idnaEnc susp (lp ++ '@' :: d) true =
      (lp.map pyLower).filter (fun c => !isZW c) := by
  unfold canonicalLocal
  have hcont : ¬ ((true : Bool) = true ∧
      GMAIL_LIKE.contains (canonicalDomain idnaEnc susp (lp ++ '@' :: d)) = true) := by
    rintro ⟨-, hcl⟩
    rw [hcdp] at hcl
    simp [hng] at hcl
  rw [if_neg hcont, hnmz, takeLocal_join lp d hlpAt]

/--
Claim C10: the canonical key keeps the case of the local part for
Gmail-equivalent domains (it only strips dots and truncates at the first
plus), so Anna@gmail.com and anna@gmail.com receive different canonical
keys and are never exact-duplicate grouped, while for every plain
non-Gmail-equivalent domain the same case-differing pair receives one
key, because there the local part is lowercased.
-/
theorem claim_C10 :
    (canonical_key stubIdna stubSusp ("Anna@gmail.com".toList) true ≠
       canonical_key stubIdna stubSusp ("anna@gmail.com".toList) true) ∧
    (∀ (idnaEnc : Str → Option Str) (susp : Char → Bool) (d : Str),
      plainLowerDomain d = true → d ∉ GMAIL_LIKE →
      canonical_key idnaEnc susp ("Anna".toList ++ '@' :: d) true =
        canonical_key idnaEnc susp ("anna".toList ++ '@' :: d) true) := by
  constructor
  · decide
  · intro idnaEnc susp d hplain hng
    unfold plainLowerDomain at hplain
    rw [Bool.and_eq_true, Bool.and_eq_true, Bool.and_eq_true] at hplain
    obtain ⟨⟨⟨hall, hne⟩, hlast⟩, hddB⟩ := hplain
    have hn : ∀ c ∈ d, (97 ≤ c.toNat ∧ c.toNat ≤ 122) ∨ (48 ≤ c.toNat ∧ c.toNat ≤ 57) ∨
        c.toNat = 46 ∨ c.toNat = 45 := by
      intro c hc
      have h1 := of_decide_eq_true (List.all_eq_true.mp hall c hc)
      rcases h1 with h | h | h | h
      · exact Or.inl h
      · exact Or.inr (Or.inl h)
      · exact Or.inr (Or.inr (Or.inl (by rw [h]; decide)))
      · exact Or.inr (Or.inr (Or.inr (by rw [h]; decide)))
    have hdNice : ∀ c ∈ d, isPySpace c = false ∧ isZW c = false ∧ c ≠ '<' ∧ c ≠ '>' ∧
        c ≠ fwAt ∧ c ≠ '@' ∧ pyLower c = c := fun c hc => plainChar_facts c (hn c hc)
    have hdLast : d.getLast? ≠ some '.' := of_decide_eq_true hlast
    have hdd : containsSub ['.', '.'] d = false := by simpa using hddB
    have hdAt : '@' ∉ d := fun hm => (hdNice '@' hm).2.2.2.2.2.1 rfl
    have hdFw : fwAt ∉ d := fun hm => (hdNice fwAt hm).2.2.2.2.1 rfl
    have hn1 := normalize_plain ("Anna".toList) d (by decide) (by decide) hdNice hdLast hdd
    have hn2 := normalize_plain ("anna".toList) d (by decide) (by decide) hdNice hdLast hdd
    have hascii : _is_ascii d = true := by
      unfold _is_ascii
      rw [List.all_eq_true]
      intro c hc
      exact decide_eq_true (by have := hn c hc; omega)
    have hdLow : ∀ c ∈ d, pyLower c = c := fun c hc => (hdNice c hc).2.2.2.2.2.2
    have hcd1 := canonicalDomain_plain idnaEnc susp ("Anna".toList) d hn1 (by decide) hascii hdLow
    have hcd2 := canonicalDomain_plain idnaEnc susp ("anna".toList) d hn2 (by decide) hascii hdLow
    have hcl1 := canonicalLocal_plain idnaEnc susp ("Anna".toList) d hn1 (by decide) hcd1 hng
    have hcl2 := canonicalLocal_plain idnaEnc susp ("anna".toList) d hn2 (by decide) hcd2 hng
    have hat1 : atCount ("Anna".toList ++ '@' :: d) = 1 := atCount_join _ _ (by decide) hdAt
    have hat2 : atCount ("anna".toList ++ '@' :: d) = 1 := atCount_join _ _ (by decide) hdAt
    have hfw1 : fwAt ∉ ("Anna".toList ++ '@' :: d) := noFw_join _ _ (by decide) hdFw
    have hfw2 : fwAt ∉ ("anna".toList ++ '@' :: d) := noFw_join _ _ (by decide) hdFw
    rw [canonical_key_isSome idnaEnc susp _ true hat1 hfw1,
        canonical_key_isSome idnaEnc susp _ true hat2 hfw2, hcl1, hcl2, hcd1, hcd2]
    have hAnna : (("Anna".toList).map pyLower).filter (fun c => !isZW c) =
        (("anna".toList).map pyLower).filter (fun c => !isZW c) := by decide
    rw [hAnna]

/-- Claim C10 witness: on the plain domain example.com the case-differing
pair shares one canonical key. -/
theorem claim_C10_witness :
    plainLowerDomain ("example.com".toList) = true ∧
    ("example.com".toList) ∉ GMAIL_LIKE ∧
    canonical_key stubIdna stubSusp ("Anna".toList ++ '@' :: "example.com".toList) true =
      canonical_key stubIdna stubSusp ("anna".toList ++ '@' :: "example.com".toList) true :=
  ⟨by decide, by decide,
   claim_C10.2 stubIdna stubSusp ("example.com".toList) (by decide) (by decide)⟩

theorem intercalate_cons_ne_nil (sep m : Str) (t : List Str) (hm : m ≠ []) :
    List.intercalate sep (m :: t) ≠ [] := by
  have hr : ∃ r, List.intercalate sep (m :: t) = m ++ r := by
    cases t with
    | nil => exact ⟨[], by simp [List.intercalate]⟩
    | cons b l =>
      exact ⟨sep ++ List.intercalate sep (b :: l), by simp [List.intercalate, List.intersperse]⟩
  obtain ⟨r, hr⟩ := hr
  rw [hr]
  intro hnil
  exact hm (List.append_eq_nil.mp hnil).1

theorem decideAction_cases (er : Bool) (risks : List String) (sfix : Option (Str × String)) :
    ((decideAction er risks sfix).1 = "suppress" ∨ (decideAction er risks sfix).1 = "fix_auto" ∨
     ((decideAction er risks sfix).1 = "accept" ∧ (decideAction er risks sfix).2 = [])) ∧
    ((decideAction er risks sfix).1 ≠ "accept" →
      ∃ m, (decideAction er risks sfix).2 = [m] ∧ m ≠ []) := by
  unfold decideAction
  split
  · exact ⟨Or.inl rfl, fun _ => ⟨_, rfl, by decide⟩⟩
  · split
    · exact ⟨Or.inl rfl, fun _ => ⟨_, rfl, by decide⟩⟩
    · split
      · refine ⟨Or.inr (Or.inl rfl), fun _ => ⟨_, rfl, ?_⟩⟩
        intro hm
        exact absurd (List.append_eq_nil.mp (List.append_eq_nil.mp hm).1).1 (by decide)
      · exact ⟨Or.inr (Or.inr ⟨rfl, rfl⟩), fun h => absurd rfl h⟩

theorem actionNotesConf_cases (er : Bool) (risks : List String)
    (sfix : Option (Str × String)) :
    ((actionNotesConf er risks sfix).1 = "accept" ∨ (actionNotesConf er risks sfix).1 = "fix_auto" ∨
     (actionNotesConf er risks sfix).1 = "review" ∨ (actionNotesConf er risks sfix).1 = "suppress") ∧
    ((actionNotesConf er risks sfix).1 ≠ "accept" →
      ∃ m t, (actionNotesConf er risks sfix).2.1 = m :: t ∧ m ≠ []) := by
  unfold actionNotesConf
  split
  · rename_i hcond
    have hda : (decideAction er risks sfix).2 = [] := by
      rcases (decideAction_cases er risks sfix).1 with h | h | h
      · rw [hcond.1] at h
        exact absurd h (by decide)
      · rw [hcond.1] at h
        exact absurd h (by decide)
      · exact h.2
    constructor
    · exact Or.inr (Or.inr (Or.inl rfl))
    · intro _
      refine ⟨"Multiple medium risks; review recommended".toList, [], ?_, by decide⟩
      show (decideAction er risks sfix).2 ++ ["Multiple medium risks; review recommended".toList] =
        ["Multiple medium risks; review recommended".toList]
      rw [hda]
      rfl
  · constructor
    · rcases (decideAction_cases er risks sfix).1 with h | h | h
      · exact Or.inr (Or.inr (Or.inr h))
      · exact Or.inr (Or.inl h)
      · exact Or.inl h.1
    · intro hne
      obtain ⟨m, hm, hmne⟩ := (decideAction_cases er risks sfix).2 hne
      exact ⟨m, [], hm, hmne⟩

/--
Claim C7 (amended): the decision function is total on the embedded
domain; its action is always one of accept, fix_auto, review and
suppress, and on every non-accept path the notes string is populated.
The original claim fails only in that the accept path leaves the notes
empty.
-/
theorem claim_C7_amended (idnaEnc : Str → Option Str) (susp : Char → Bool)
    (fz : Str → List Str → Option Str) (email : Str) (er : Bool) (dset : List Str)
    (roles : Option (List Str)) (tops : List Str) (tlds : Option (List Str)) :
    ((validate_email_deterministic idnaEnc susp fz email er dset roles tops tlds).action = "accept" ∨
     (validate_email_deterministic idnaEnc susp fz email er dset roles tops tlds).action = "fix_auto" ∨
     (validate_email_deterministic idnaEnc susp fz email er dset roles tops tlds).action = "review" ∨
     (validate_email_deterministic idnaEnc susp fz email er dset roles tops tlds).action = "suppress") ∧
    ((validate_email_deterministic idnaEnc susp fz email er dset roles tops tlds).action ≠ "accept" →
     (validate_email_deterministic idnaEnc susp fz email er dset roles tops tlds).notes ≠ []) := by
  unfold validate_email_deterministic
  split
  · constructor
    · exact Or.inr (Or.inr (Or.inr rfl))
    · intro _
      show "Invalid \x27@\x27 count".toList ≠ []
      decide
  · simp only [validate_main]
    constructor
    · exact (actionNotesConf_cases er _ _).1
    · intro hne
      obtain ⟨m, t, hm, hmne⟩ := (actionNotesConf_cases er _ _).2 hne
      show (List.intercalate ("; ".toList) (actionNotesConf er
        (mainRisks idnaEnc susp dset roles tlds (normalize_email_raw email).1)
        (mainSfix idnaEnc susp fz dset roles tops tlds (normalize_email_raw email).1)).2.1).take 160 ≠ []
      rw [hm]
      intro hnil
      rcases List.take_eq_nil_iff.mp hnil with h | h
      · cases h
      · exact intercalate_cons_ne_nil _ m t hmne h

/-- Claim C7 amended witness: on an address with two at signs the action
is suppress — one of the four actions — and the notes are populated. -/
theorem claim_C7_amended_witness :
    ((validate_email_deterministic stubIdna stubSusp stubFuzzy ("a@@b.com".toList)
        false [] none [] none).action = "accept" ∨
     (validate_email_deterministic stubIdna stubSusp stubFuzzy ("a@@b.com".toList)
        false [] none [] none).action = "fix_auto" ∨
     (validate_email_deterministic stubIdna stubSusp stubFuzzy ("a@@b.com".toList)
        false [] none [] none).action = "review" ∨
     (validate_email_deterministic stubIdna stubSusp stubFuzzy ("a@@b.com".toList)
        false [] none [] none).action = "suppress") ∧
    ((validate_email_deterministic stubIdna stubSusp stubFuzzy ("a@@b.com".toList)
        false [] none [] none).action ≠ "accept" →
     (validate_email_deterministic stubIdna stubSusp stubFuzzy ("a@@b.com".toList)
        false [] none [] none).notes ≠ []) :=
  claim_C7_amended stubIdna stubSusp stubFuzzy ("a@@b.com".toList) false [] none [] none

end EV





